import Mathlib

/-!
# os-shell: the line tokenizer of `shell.c`

A shallow embedding of `src/shell/shell.c` (`assign_token_type`, `parse_tokens`,
`main`) together with the C library routines it relies on (`strcmp`, `strtok`,
`fgets`, `strlen`), followed by the properties proved about them.

Memory model.  The line buffer is a `List Char`; the byte that follows the last
stored character is the string terminator, so reading at an index at or past the
length of the list yields `NUL`.  A `char *` into the line buffer is the offset
of the byte it points to.  The token array returned by `malloc` is a list with
one entry per allocated slot; a store to a slot outside it is a fault.
-/

namespace Shell

/-! ## Data model -/

/-- The byte that terminates a C string. -/
def NUL : Char := Char.ofNat 0

/-- The constant of `#define MAX_LINE 1<<10`. -/
def MAX_LINE : Nat := 1 <<< 10

/-- The enumeration `typedef enum { EXIT, PIPE, REDIRECT_IN, REDIRECT_OUT, BACKGROUND,
DEFAULT, END } TokenType`. -/
inductive TokenType where
  | EXIT
  | PIPE
  | REDIRECT_IN
  | REDIRECT_OUT
  | BACKGROUND
  | DEFAULT
  | END
  deriving DecidableEq, Repr

/-- The record `typedef struct { TokenType type; char *value; } Token`: `value` is `NULL`
(`none`) or a pointer into the line buffer (`some offset`). -/
structure Token where
  type : TokenType
  value : Option Nat
  deriving DecidableEq, Repr

/-- Ways in which a run of the program leaves defined behaviour. -/
inductive Fault where
  /-- An access `tokens[index]` to an array of `capacity` slots with `capacity ≤ index`. -/
  | outOfBounds (index capacity : Nat)
  /-- A read of a buffer that was never written (`fgets` stored nothing). -/
  | uninitialised
  /-- The iteration budget of a loop of the model was used up. -/
  | outOfFuel
  deriving DecidableEq, Repr

/-! ## C library -/

/-- The byte `mem[i]`; the terminator follows the stored characters. -/
def charAt (mem : List Char) (i : Nat) : Char := mem.getD i NUL

/-- The C string that starts at offset `p`: the bytes up to the first `NUL`. -/
def cstr (mem : List Char) (p : Nat) : List Char :=
  (mem.drop p).takeWhile (fun c => c != NUL)

/-- The length `strlen(mem)` of the string that starts the buffer. -/
def strlen (mem : List Char) : Nat := (cstr mem 0).length

/-- The result of `strcmp(a, b)` on the contents of two C strings: the difference of the
first two bytes that differ, the terminator counting as byte 0. -/
def strcmp : List Char → List Char → Int
  | [], [] => 0
  | [], b :: _ => - (b.toNat : Int)
  | a :: _, [] => (a.toNat : Int)
  | a :: as, b :: bs => if a = b then strcmp as bs else (a.toNat : Int) - (b.toNat : Int)

/-- The value of `strspn(s, accept)`: length of the initial segment of the string `s` made
of bytes of `accept`. -/
def strspn (s accept : List Char) : Nat :=
  (s.takeWhile (fun c => c != NUL && decide (c ∈ accept))).length

/-- The value of `strcspn(s, reject)`: length of the initial segment of the string `s` made
of bytes not in `reject`. -/
def strcspn (s reject : List Char) : Nat :=
  (s.takeWhile (fun c => c != NUL && !decide (c ∈ reject))).length

/-- The memory `strtok` works on: the line buffer and `strtok`'s own saved
pointer. -/
structure CState where
  mem : List Char
  save : Nat
  deriving DecidableEq, Repr

/-- The call `strtok(str, delim)`: start at `str`, or at the saved pointer when `str` is
`NULL`; skip delimiters; at the end of the string return `NULL`; otherwise the
token runs to the next delimiter, which is overwritten with `NUL`, and the saved
pointer is set just after it (or on the terminator when the token ends the
string). -/
def strtok (str : Option Nat) (delim : List Char) (st : CState) : Option Nat × CState :=
  let s := match str with
    | some p => p
    | none => st.save
  let s := s + strspn (st.mem.drop s) delim
  if charAt st.mem s = NUL then (none, { st with save := s })
  else
    let e := s + strcspn (st.mem.drop s) delim
    if charAt st.mem e = NUL then (some s, { st with save := e })
    else (some s, { mem := st.mem.set e NUL, save := e + 1 })

/-- The characters `fgets` stores: at most `k` of them, stopping after a
newline. -/
def readLine : Nat → List Char → List Char
  | 0, _ => []
  | _ + 1, [] => []
  | k + 1, c :: cs => if c = '\n' then [c] else c :: readLine k cs

/-- The call `fgets(buf, size, stdin)`: the characters stored in front of the
terminator, or `none` when end of file comes before any character (the buffer
is then left untouched). -/
def fgets (size : Nat) (stdin : List Char) : Option (List Char) :=
  match stdin with
  | [] => none
  | _ :: _ => some (readLine (size - 1) stdin)

/-! ## `shell.c` -/

/-- The string literals of `assign_token_type`. -/
def litExit : List Char := ['e', 'x', 'i', 't']

/-- The function `assign_token_type(Token *token)`: sets `token->type` from `token->value`. -/
def assign_token_type (mem : List Char) (token : Token) : Token :=
  match token.value with
  | none => { token with type := .END }
  | some p =>
    if strcmp (cstr mem p) litExit = 0 then { token with type := .EXIT }
    else if strcmp (cstr mem p) ['|'] = 0 then { token with type := .PIPE }
    else if strcmp (cstr mem p) ['<'] = 0 then { token with type := .REDIRECT_IN }
    else if strcmp (cstr mem p) ['>'] = 0 then { token with type := .REDIRECT_OUT }
    else if strcmp (cstr mem p) ['&'] = 0 then { token with type := .BACKGROUND }
    else { token with type := .DEFAULT }

/-- The labels `case ' ': case '\t': case '\n':` of the counting loop. -/
def isDelimCase (c : Char) : Bool := c == ' ' || c == '\t' || c == '\n'

/-- The delimiter string `" \t\n"` handed to `strtok`. -/
def delims : List Char := [' ', '\t', '\n']

/-- The loop `for (i = 1; i < n; i++)` of `parse_tokens` ("count args"), from
the state `(i, argCount)`; the result is the final `argCount`. -/
def countLoop (line : List Char) (n : Nat) : Nat → Nat → Nat → Except Fault Nat
  | 0, _, _ => .error .outOfFuel
  | fuel + 1, i, argCount =>
    if i < n then
      if charAt line i = NUL then .ok argCount
      else
        let argCount :=
          if isDelimCase (charAt line i) then
            if isDelimCase (charAt line (i - 1)) then argCount else argCount + 1
          else argCount
        countLoop line n fuel (i + 1) argCount
    else .ok argCount

/-- The two statements `tokens[i].value = v; assign_token_type(&tokens[i]);`. -/
def storeToken (mem : List Char) (tokens : List Token) (i : Nat) (v : Option Nat) :
    Except Fault (List Token) :=
  match tokens[i]? with
  | some t => .ok (tokens.set i (assign_token_type mem { t with value := v }))
  | none => .error (.outOfBounds i tokens.length)

/-- The loop `while (tokens[i++].value != NULL) { ... }` of `parse_tokens`. -/
def populateLoop : Nat → List Token → Nat → CState → Except Fault (List Token × CState)
  | 0, _, _, _ => .error .outOfFuel
  | fuel + 1, tokens, i, st =>
    match tokens[i]? with
    | none => .error (.outOfBounds i tokens.length)
    | some t =>
      match t.value with
      | none => .ok (tokens, st)
      | some _ =>
        let r := strtok none delims st
        match storeToken r.2.mem tokens (i + 1) r.1 with
        | .error e => .error e
        | .ok tokens => populateLoop fuel tokens (i + 1) r.2

/-- What `parse_tokens` leaves behind: the token array and the line buffer. -/
structure ParseResult where
  tokens : List Token
  line : List Char
  deriving DecidableEq, Repr

/-- The function `Token *parse_tokens(char *line, int n)`: the counting pass,
`malloc(sizeof(Token) * (argCount + 1))`, then the populate pass.  `junk` is the
indeterminate content of a freshly allocated slot.  The `int` counters `i` and
`argCount` stay below `n`, so they are natural numbers here. -/
def parse_tokens (junk : Token) (line : List Char) (n : Nat) : Except Fault ParseResult :=
  match countLoop line n (n + 1) 1 0 with
  | .error e => .error e
  | .ok argCount =>
    let tokens := List.replicate (argCount + 1) junk
    let r := strtok (some 0) delims { mem := line, save := 0 }
    match storeToken r.2.mem tokens 0 r.1 with
    | .error e => .error e
    | .ok tokens =>
      match populateLoop (line.length + 2) tokens 0 r.2 with
      | .error e => .error e
      | .ok (tokens, st) => .ok { tokens := tokens, line := st.mem }

/-- The text a token denotes: the C string its `value` points to. -/
def Token.text (mem : List Char) (t : Token) : Option (List Char) :=
  t.value.map (cstr mem)

/-- The token stream held by a result: kind and text of every slot. -/
def ParseResult.stream (r : ParseResult) : List (TokenType × Option (List Char)) :=
  r.tokens.map (fun t => (t.type, t.text r.line))

/-- What a finished run of the driver shows. -/
structure Outcome where
  status : Nat
  stdout : List Char
  stderr : List Char
  deriving DecidableEq, Repr

/-- The expansion of `%s` for the argument `v`; `nullStr` is what the C library
prints for a `NULL` argument. -/
def fmtS (nullStr mem : List Char) (v : Option Nat) : List Char :=
  match v with
  | some p => cstr mem p
  | none => nullStr

/-- The loop `while (tokens[i].type != END) { fprintf(stdout, "%s ", ...); i++; }`
run over the slots from `tokens[i]` on; `cap` is the size of the array. -/
def printLoop (nullStr mem : List Char) (cap : Nat) : List Token → Except Fault (List Char)
  | [] => .error (.outOfBounds cap cap)
  | t :: rest =>
    if t.type = .END then .ok []
    else
      match printLoop nullStr mem cap rest with
      | .error e => .error e
      | .ok out => .ok (fmtS nullStr mem t.value ++ ' ' :: out)

/-- The text of the diagnostic `"Invalid command: "`. -/
def invalidCommand : List Char := "Invalid command: ".toList

/-- The function `int main(int argc, char *argv[])`, from the bytes waiting on standard
input to exit status and output. -/
def main (junk : Token) (nullStr stdin : List Char) : Except Fault Outcome :=
  match fgets MAX_LINE stdin with
  | none => .error .uninitialised
  | some line =>
    match parse_tokens junk line (strlen line) with
    | .error e => .error e
    | .ok r =>
      match r.tokens with
      | [] => .error (.outOfBounds 0 0)
      | t0 :: _ =>
        match t0.type with
        | .EXIT => .ok { status := 0, stdout := [], stderr := [] }
        | .DEFAULT =>
          match printLoop nullStr r.line r.tokens.length r.tokens with
          | .error e => .error e
          | .ok out => .ok { status := 0, stdout := out, stderr := [] }
        | _ =>
          .ok { status := 1, stdout := [],
                stderr := invalidCommand ++ fmtS nullStr r.line t0.value ++ ['\n'] }

/-! ## The specification's vocabulary -/

namespace Spec

/-- Delimiter: space, horizontal tab, or newline. -/
def isDelimiter (c : Char) : Bool := decide (c = ' ' ∨ c = '\t' ∨ c = '\n')

/-- The maximal runs of non-delimiter characters of a line, left to right. -/
def words (line : List Char) : List (List Char) :=
  (line.splitOnP isDelimiter).filter (fun w => decide (w ≠ []))

/-- The classification table of the specification. -/
def classify : Option (List Char) → TokenType
  | none => .END
  | some w =>
    if w = "exit".toList then .EXIT
    else if w = "|".toList then .PIPE
    else if w = "<".toList then .REDIRECT_IN
    else if w = ">".toList then .REDIRECT_OUT
    else if w = "&".toList then .BACKGROUND
    else .DEFAULT

/-- The token stream of a line: one classified token per word, then `End`. -/
def tokenize (line : List Char) : List (TokenType × Option (List Char)) :=
  (words line).map (fun w => (classify (some w), some w)) ++ [(TokenType.END, none)]

end Spec

/-! ## Vocabulary of the proofs -/

/-- The string ends where `post` begins: nothing follows, or a `NUL` does. -/
def Terminated (post : List Char) : Prop := post.headD NUL = NUL

/-- A non-empty run of characters that are neither delimiters nor `NUL`. -/
def IsWord (w : List Char) : Prop := w ≠ [] ∧ ∀ c ∈ w, isDelimCase c = false ∧ c ≠ NUL

/-- The populate code entered at the store into slot `j`:
`tokens[j].value = strtok(NULL, " \t\n"); assign_token_type(&tokens[j]);` and then
the `while` loop with `i = j`. -/
def populateFrom (fuel : Nat) (tokens : List Token) (j : Nat) (st : CState) :
    Except Fault (List Token × CState) :=
  match storeToken (strtok none delims st).2.mem tokens j (strtok none delims st).1 with
  | .error e => .error e
  | .ok tokens => populateLoop fuel tokens j (strtok none delims st).2

/-- What the populate code does from slot `done.length` on, with `m` slots left
and the unread part `rest` of the line: with room for every word and the `End`
token it fills the slots with the token stream of `rest`; without, it stores
outside the array. -/
def PopulateSpec (junk : Token) (fuel : Nat) (pre rest post : List Char) (done : List Token)
    (m : Nat) : Prop :=
  ((Spec.words rest).length + 1 ≤ m →
    ∃ new rest' s',
      populateFrom fuel (done ++ List.replicate m junk) done.length
          { mem := pre ++ (rest ++ post), save := pre.length } =
        .ok (done ++ (new ++ List.replicate (m - ((Spec.words rest).length + 1)) junk),
          { mem := pre ++ (rest' ++ post), save := s' }) ∧
      rest'.length = rest.length ∧
      new.map (fun t => (t.type, t.text (pre ++ (rest' ++ post)))) = Spec.tokenize rest) ∧
  (m < (Spec.words rest).length + 1 →
    populateFrom fuel (done ++ List.replicate m junk) done.length
        { mem := pre ++ (rest ++ post), save := pre.length } =
      .error (.outOfBounds (done.length + m) (done.length + m)))

/-- Number of places in `prev :: l` where a delimiter follows a character that
is not one. -/
def wordEnds (prev : Char) : List Char → Nat
  | [] => 0
  | c :: l => (if isDelimCase c && !isDelimCase prev then 1 else 0) + wordEnds c l

/-- The line is not empty and its last character is not a delimiter. -/
def endsInWord (l : List Char) : Bool :=
  match l.getLast? with
  | some c => !isDelimCase c
  | none => false

/-- The value of `argCount` after the counting loop. -/
def argCountOf : List Char → Nat
  | [] => 0
  | c :: l => wordEnds c l

/-- The buffer `after` is the buffer `before` with some of its delimiters
overwritten by `NUL`: same length, and every byte is unchanged or was a
delimiter and is now `NUL`. -/
def Nulled (before after : List Char) : Prop :=
  after.length = before.length ∧
  ∀ i, charAt after i = charAt before i ∨
    (isDelimCase (charAt before i) = true ∧ charAt after i = NUL)

/-- The texts of a list of words, each followed by a single space. -/
def Spec.render : List (List Char) → List Char
  | [] => []
  | w :: ws => w ++ ' ' :: Spec.render ws

/-! ## Strings in memory -/

theorem toNat_ne_zero_of_ne_NUL {c : Char} (h : c ≠ NUL) : c.toNat ≠ 0 := by
  intro h0
  apply h
  have := Char.ofNat_toNat c
  rw [h0] at this
  exact this.symm

theorem toNat_injective {a b : Char} (h : a.toNat = b.toNat) : a = b := by
  rw [← Char.ofNat_toNat a, ← Char.ofNat_toNat b, h]

/-- The function `strcmp` returns 0 exactly on equal strings. -/
theorem strcmp_eq_zero_iff (a b : List Char)
    (ha : ∀ c ∈ a, c ≠ NUL) (hb : ∀ c ∈ b, c ≠ NUL) : strcmp a b = 0 ↔ a = b := by
  induction a generalizing b with
  | nil =>
    cases b with
    | nil => simp [strcmp]
    | cons y ys =>
      have hy : y.toNat ≠ 0 := toNat_ne_zero_of_ne_NUL (hb y (by simp))
      simp [strcmp]
      omega
  | cons x xs ih =>
    cases b with
    | nil =>
      have hx : x.toNat ≠ 0 := toNat_ne_zero_of_ne_NUL (ha x (by simp))
      simp [strcmp]
      omega
    | cons y ys =>
      by_cases hxy : x = y
      · subst hxy
        have := ih ys (fun c hc => ha c (by simp [hc])) (fun c hc => hb c (by simp [hc]))
        simp [strcmp, this]
      · have hne : x.toNat ≠ y.toNat := fun h => hxy (toNat_injective h)
        simp [strcmp, hxy]
        omega

theorem cstr_ne_NUL (mem : List Char) (p : Nat) : ∀ c ∈ cstr mem p, c ≠ NUL := by
  intro c hc
  have := List.mem_takeWhile_imp hc
  simpa using this

theorem strcmp_cstr_lit (mem : List Char) (p : Nat) (lit : List Char)
    (hl : ∀ c ∈ lit, c ≠ NUL) : strcmp (cstr mem p) lit = 0 ↔ cstr mem p = lit :=
  strcmp_eq_zero_iff _ _ (cstr_ne_NUL mem p) hl

/-- The kind `assign_token_type` stores is the one the classification table
gives for the token's text; the `value` field is left alone. -/
theorem assign_token_type_eq (mem : List Char) (token : Token) :
    assign_token_type mem token =
      { type := Spec.classify (token.text mem), value := token.value } := by
  cases hv : token.value with
  | none => simp [assign_token_type, Token.text, hv, Spec.classify]
  | some p =>
    have h1 := strcmp_cstr_lit mem p litExit (by decide)
    have h2 := strcmp_cstr_lit mem p ['|'] (by decide)
    have h3 := strcmp_cstr_lit mem p ['<'] (by decide)
    have h4 := strcmp_cstr_lit mem p ['>'] (by decide)
    have h5 := strcmp_cstr_lit mem p ['&'] (by decide)
    have e1 : "exit".toList = litExit := rfl
    have e2 : "|".toList = ['|'] := rfl
    have e3 : "<".toList = ['<'] := rfl
    have e4 : ">".toList = ['>'] := rfl
    have e5 : "&".toList = ['&'] := rfl
    simp only [assign_token_type, Token.text, hv, Spec.classify, Option.map_some', h1, h2, h3,
      h4, h5, e1, e2, e3, e4, e5]
    split_ifs <;> rfl

/-! ## `strtok` on a buffer cut into its parts -/

theorem terminated_nil : Terminated [] := rfl

theorem isDelimCase_iff (c : Char) : isDelimCase c = true ↔ c = ' ' ∨ c = '\t' ∨ c = '\n' := by
  simp [isDelimCase, or_assoc]

theorem mem_delims (c : Char) : decide (c ∈ delims) = isDelimCase c := by
  rw [Bool.eq_iff_iff]
  simp [delims, isDelimCase, or_assoc]

theorem isDelimCase_ne_NUL {c : Char} (h : isDelimCase c = true) : c ≠ NUL := by
  rw [isDelimCase_iff] at h
  rcases h with h | h | h <;> subst h <;> decide

theorem isDelimCase_NUL : isDelimCase NUL = false := by decide

theorem isDelimiter_eq (c : Char) : Spec.isDelimiter c = isDelimCase c := by
  rw [Bool.eq_iff_iff]
  simp [Spec.isDelimiter, isDelimCase, or_assoc]

theorem charAt_append (a b : List Char) : charAt (a ++ b) a.length = b.headD NUL := by
  unfold charAt
  rw [List.getD_append_right _ _ _ _ (le_refl _)]
  cases b <;> simp

theorem charAt_append_add (a b : List Char) (k : Nat) :
    charAt (a ++ b) (a.length + k) = charAt b k := by
  unfold charAt
  rw [List.getD_append_right _ _ _ _ (by omega)]
  simp

theorem takeWhile_append_stop {α : Type} (p : α → Bool) (a b : List α)
    (ha : ∀ x ∈ a, p x = true) (hb : ∀ x, b.head? = some x → p x = false) :
    (a ++ b).takeWhile p = a := by
  rw [List.takeWhile_append_of_pos ha]
  cases b with
  | nil => simp
  | cons y ys =>
    have := hb y rfl
    simp [List.takeWhile_cons, this]

theorem cstr_append (a w b : List Char) (hw : ∀ c ∈ w, c ≠ NUL) (hb : Terminated b) :
    cstr (a ++ (w ++ b)) a.length = w := by
  unfold cstr
  rw [List.drop_left]
  apply takeWhile_append_stop
  · intro x hx
    simpa using hw x hx
  · intro x hx
    cases b with
    | nil => simp at hx
    | cons y ys =>
      simp at hx
      subst hx
      simpa [Terminated] using hb

theorem set_append_length (a b : List Char) (c x : Char) :
    (a ++ c :: b).set a.length x = a ++ x :: b := by
  rw [List.set_append_right _ _ (le_refl _)]
  simp

theorem strspn_delims (ds r : List Char) (hds : ∀ c ∈ ds, isDelimCase c = true)
    (hr : ∀ x, r.head? = some x → isDelimCase x = false) :
    strspn (ds ++ r) delims = ds.length := by
  unfold strspn
  rw [takeWhile_append_stop _ ds r]
  · intro x hx
    simp only [mem_delims, hds x hx, Bool.and_true]
    simpa using isDelimCase_ne_NUL (hds x hx)
  · intro x hx
    simp [mem_delims, hr x hx]

theorem strcspn_delims (w r : List Char) (hw : ∀ c ∈ w, isDelimCase c = false ∧ c ≠ NUL)
    (hr : ∀ x, r.head? = some x → isDelimCase x = true ∨ x = NUL) :
    strcspn (w ++ r) delims = w.length := by
  unfold strcspn
  rw [takeWhile_append_stop _ w r]
  · intro x hx
    simp only [mem_delims, (hw x hx).1, Bool.not_false, Bool.and_true]
    simpa using (hw x hx).2
  · intro x hx
    rcases hr x hx with h | h
    · simp [mem_delims, h]
    · simp [h]

theorem head?_terminated {post : List Char} (h : Terminated post) :
    ∀ x, post.head? = some x → x = NUL := by
  intro x hx
  cases post with
  | nil => simp at hx
  | cons y ys =>
    simp at hx
    subst hx
    simpa [Terminated] using h

/-- The call `strtok` at the end of the string: only delimiters are left. -/
theorem strtok_end (pre ds post : List Char) (hds : ∀ c ∈ ds, isDelimCase c = true)
    (hpost : Terminated post) :
    strtok none delims { mem := pre ++ (ds ++ post), save := pre.length } =
      (none, { mem := pre ++ (ds ++ post), save := pre.length + ds.length }) := by
  have h1 : strspn (ds ++ post) delims = ds.length :=
    strspn_delims ds post hds (fun x hx => by
      rw [head?_terminated hpost x hx]; exact isDelimCase_NUL)
  have h2 : charAt (pre ++ (ds ++ post)) (pre.length + ds.length) = NUL := by
    rw [← List.append_assoc, ← List.length_append, charAt_append]
    exact hpost
  simp only [strtok, List.drop_left, h1, h2, if_true]

theorem IsWord.head_append {w : List Char} (hw : IsWord w) (r : List Char) :
    ∃ x, (w ++ r).head? = some x ∧ isDelimCase x = false ∧ x ≠ NUL := by
  cases w with
  | nil => exact absurd rfl hw.1
  | cons x xs => exact ⟨x, rfl, hw.2 x (by simp)⟩

theorem strtok_scan (pre ds w r : List Char) (hds : ∀ c ∈ ds, isDelimCase c = true)
    (hw : IsWord w) (hr : ∀ x, r.head? = some x → isDelimCase x = true ∨ x = NUL) :
    strspn (ds ++ (w ++ r)) delims = ds.length ∧
    charAt (pre ++ (ds ++ (w ++ r))) (pre.length + ds.length) ≠ NUL ∧
    strcspn (List.drop (pre.length + ds.length) (pre ++ (ds ++ (w ++ r)))) delims = w.length ∧
    charAt (pre ++ (ds ++ (w ++ r))) (pre.length + ds.length + w.length) = r.headD NUL := by
  obtain ⟨x, hx, hxd, hxn⟩ := hw.head_append r
  refine ⟨?_, ?_, ?_, ?_⟩
  · apply strspn_delims _ _ hds
    intro y hy
    rw [hx] at hy
    cases hy
    exact hxd
  · rw [← List.append_assoc, ← List.length_append, charAt_append]
    cases hwr : w ++ r with
    | nil => rw [hwr] at hx; simp at hx
    | cons y ys =>
      rw [hwr] at hx
      simp at hx
      subst hx
      simpa using hxn
  · rw [← List.append_assoc, ← List.length_append, List.drop_left]
    exact strcspn_delims w r hw.2 hr
  · have : pre ++ (ds ++ (w ++ r)) = (pre ++ ds ++ w) ++ r := by simp
    rw [this, ← List.length_append, ← List.length_append, charAt_append]

/-- The call `strtok` on the last word of the string: the buffer is left as it is. -/
theorem strtok_last (pre ds w post : List Char) (hds : ∀ c ∈ ds, isDelimCase c = true)
    (hw : IsWord w) (hpost : Terminated post) :
    strtok none delims { mem := pre ++ (ds ++ (w ++ post)), save := pre.length } =
      (some (pre.length + ds.length),
        { mem := pre ++ (ds ++ (w ++ post)), save := pre.length + ds.length + w.length }) := by
  obtain ⟨h1, h2, h3, h4⟩ := strtok_scan pre ds w post hds hw
    (fun x hx => Or.inr (head?_terminated hpost x hx))
  have h5 : charAt (pre ++ (ds ++ (w ++ post))) (pre.length + ds.length + w.length) = NUL := by
    rw [h4]; exact hpost
  simp only [strtok, List.drop_left, h1, h2, h3, h5, if_true, if_false]

/-- The call `strtok` on a word followed by a delimiter: the delimiter becomes `NUL`. -/
theorem strtok_mid (pre ds w : List Char) (d : Char) (tl : List Char)
    (hds : ∀ c ∈ ds, isDelimCase c = true) (hw : IsWord w) (hd : isDelimCase d = true) :
    strtok none delims { mem := pre ++ (ds ++ (w ++ d :: tl)), save := pre.length } =
      (some (pre.length + ds.length),
        { mem := pre ++ (ds ++ (w ++ NUL :: tl)),
          save := pre.length + ds.length + w.length + 1 }) := by
  obtain ⟨h1, h2, h3, h4⟩ := strtok_scan pre ds w (d :: tl) hds hw
    (fun x hx => by simp at hx; subst hx; exact Or.inl hd)
  have h5 : charAt (pre ++ (ds ++ (w ++ d :: tl))) (pre.length + ds.length + w.length) ≠ NUL := by
    rw [h4]; exact isDelimCase_ne_NUL hd
  have h6 : (pre ++ (ds ++ (w ++ d :: tl))).set (pre.length + ds.length + w.length) NUL =
      pre ++ (ds ++ (w ++ NUL :: tl)) := by
    have e1 : pre ++ (ds ++ (w ++ d :: tl)) = (pre ++ ds ++ w) ++ d :: tl := by simp
    have e2 : pre ++ (ds ++ (w ++ NUL :: tl)) = (pre ++ ds ++ w) ++ NUL :: tl := by simp
    rw [e1, e2, ← List.length_append, ← List.length_append, set_append_length]
  simp only [strtok, List.drop_left, h1, h2, h3, h5, h6, if_false]

theorem strtok_some_zero (delim : List Char) (mem : List Char) (s : Nat) :
    strtok (some 0) delim { mem := mem, save := s } =
      strtok none delim { mem := mem, save := 0 } := by
  by_cases h1 : charAt mem (0 + strspn (List.drop 0 mem) delim) = NUL
  · simp only [strtok, h1, if_true]
  · by_cases h2 : charAt mem (0 + strspn (List.drop 0 mem) delim +
        strcspn (List.drop (0 + strspn (List.drop 0 mem) delim) mem) delim) = NUL
    · simp only [strtok, h1, h2, if_true, if_false]
    · simp only [strtok, h1, h2, if_false]

/-! ## The words of a line -/

theorem words_nil : Spec.words [] = [] := by
  simp [Spec.words, List.splitOnP_nil]

theorem words_delim_cons (c : Char) (l : List Char) (hc : isDelimCase c = true) :
    Spec.words (c :: l) = Spec.words l := by
  simp [Spec.words, List.splitOnP_cons, isDelimiter_eq, hc]

theorem words_delims_append (ds l : List Char) (hds : ∀ c ∈ ds, isDelimCase c = true) :
    Spec.words (ds ++ l) = Spec.words l := by
  induction ds with
  | nil => rfl
  | cons d ds ih =>
    rw [List.cons_append, words_delim_cons _ _ (hds d (by simp))]
    exact ih (fun c hc => hds c (by simp [hc]))

theorem words_delims (ds : List Char) (hds : ∀ c ∈ ds, isDelimCase c = true) :
    Spec.words ds = [] := by
  have := words_delims_append ds [] hds
  rw [List.append_nil] at this
  rw [this, words_nil]

theorem words_run (w : List Char) (hne : w ≠ []) (hnd : ∀ c ∈ w, isDelimCase c = false) :
    Spec.words w = [w] := by
  have h : ∀ x ∈ w, ¬ Spec.isDelimiter x = true := by
    intro x hx
    rw [isDelimiter_eq, hnd x hx]
    simp
  simp [Spec.words, List.splitOnP_eq_single _ _ h, hne]

theorem words_run_cons (w : List Char) (d : Char) (tl : List Char) (hne : w ≠ [])
    (hnd : ∀ c ∈ w, isDelimCase c = false) (hd : isDelimCase d = true) :
    Spec.words (w ++ d :: tl) = w :: Spec.words tl := by
  have h : ∀ x ∈ w, ¬ Spec.isDelimiter x = true := by
    intro x hx
    rw [isDelimiter_eq, hnd x hx]
    simp
  have hd2 : Spec.isDelimiter d = true := by rw [isDelimiter_eq]; exact hd
  simp [Spec.words, List.splitOnP_first _ _ h d hd2, hne]

theorem words_word (w : List Char) (hw : IsWord w) : Spec.words w = [w] :=
  words_run w hw.1 (fun c hc => (hw.2 c hc).1)

theorem words_word_cons (w : List Char) (d : Char) (tl : List Char) (hw : IsWord w)
    (hd : isDelimCase d = true) : Spec.words (w ++ d :: tl) = w :: Spec.words tl :=
  words_run_cons w d tl hw.1 (fun c hc => (hw.2 c hc).1) hd

/-- Every string is delimiters only, or delimiters and a last word, or
delimiters, a word, a delimiter and a remainder. -/
theorem split_cases (rest : List Char) (hrest : ∀ c ∈ rest, c ≠ NUL) :
    (∀ c ∈ rest, isDelimCase c = true) ∨
    (∃ ds w, rest = ds ++ w ∧ (∀ c ∈ ds, isDelimCase c = true) ∧ IsWord w) ∨
    (∃ ds w d tl, rest = ds ++ (w ++ d :: tl) ∧ (∀ c ∈ ds, isDelimCase c = true) ∧
      IsWord w ∧ isDelimCase d = true) := by
  have e1 := List.takeWhile_append_dropWhile isDelimCase rest
  have hds : ∀ c ∈ rest.takeWhile isDelimCase, isDelimCase c = true :=
    fun c hc => List.mem_takeWhile_imp hc
  cases h1 : rest.dropWhile isDelimCase with
  | nil =>
    left
    exact List.dropWhile_eq_nil_iff.mp h1
  | cons x xs =>
    right
    have hx : isDelimCase x = false := by
      have := List.head_dropWhile_not isDelimCase rest (by rw [h1]; simp)
      simpa [h1] using this
    have e2 := List.takeWhile_append_dropWhile (fun c => !isDelimCase c) (x :: xs)
    have hmem : ∀ c ∈ x :: xs, c ≠ NUL := by
      intro c hc
      apply hrest
      rw [← e1, h1]
      exact List.mem_append_right _ hc
    have hw : IsWord ((x :: xs).takeWhile (fun c => !isDelimCase c)) := by
      constructor
      · simp [List.takeWhile_cons, hx]
      · intro c hc
        refine ⟨?_, hmem c (List.takeWhile_subset _ hc)⟩
        simpa using List.mem_takeWhile_imp hc
    cases h2 : (x :: xs).dropWhile (fun c => !isDelimCase c) with
    | nil =>
      left
      refine ⟨_, _, ?_, hds, hw⟩
      rw [h2, List.append_nil] at e2
      rw [e2, ← h1, e1]
    | cons d tl =>
      right
      have hd : isDelimCase d = true := by
        have := List.head_dropWhile_not (fun c => !isDelimCase c) (x :: xs) (by rw [h2]; simp)
        simpa [h2] using this
      refine ⟨_, _, d, tl, ?_, hds, hw, hd⟩
      rw [← h2, e2, ← h1, e1]

/-! ## The populate pass -/

theorem getElem?_append_length (done : List Token) (t : Token) (xs : List Token) :
    (done ++ t :: xs)[done.length]? = some t := by
  rw [List.getElem?_append_right (le_refl _)]
  simp

theorem storeToken_junk (mem : List Char) (done : List Token) (junk : Token) (m : Nat)
    (v : Option Nat) :
    storeToken mem (done ++ List.replicate (m + 1) junk) done.length v =
      .ok (done ++ { type := Spec.classify (v.map (cstr mem)), value := v } ::
        List.replicate m junk) := by
  rw [List.replicate_succ]
  simp only [storeToken, getElem?_append_length, assign_token_type_eq, Token.text]
  rw [List.set_append_right _ _ (le_refl _)]
  simp

theorem storeToken_full (mem : List Char) (done : List Token) (v : Option Nat) :
    storeToken mem done done.length v = .error (.outOfBounds done.length done.length) := by
  simp [storeToken]

theorem populateLoop_continue (fuel : Nat) (done : List Token) (t : Token) (xs : List Token)
    (st : CState) (p : Nat) (ht : t.value = some p) :
    populateLoop (fuel + 1) (done ++ t :: xs) done.length st =
      populateFrom fuel (done ++ t :: xs) (done.length + 1) st := by
  simp only [populateLoop, getElem?_append_length, ht, populateFrom]

theorem populateLoop_stop (fuel : Nat) (done : List Token) (t : Token) (xs : List Token)
    (st : CState) (ht : t.value = none) :
    populateLoop (fuel + 1) (done ++ t :: xs) done.length st = .ok (done ++ t :: xs, st) := by
  simp only [populateLoop, getElem?_append_length, ht]

/-- The populate code when only delimiters are left and a slot is free: the
`End` token is stored and the loop stops. -/
theorem populateFrom_delims (junk : Token) (fuel : Nat) (pre ds post : List Char)
    (done : List Token) (m : Nat) (hds : ∀ c ∈ ds, isDelimCase c = true)
    (hpost : Terminated post) :
    populateFrom (fuel + 1) (done ++ List.replicate (m + 1) junk) done.length
        { mem := pre ++ (ds ++ post), save := pre.length } =
      .ok (done ++ { type := .END, value := none } :: List.replicate m junk,
        { mem := pre ++ (ds ++ post), save := pre.length + ds.length }) := by
  unfold populateFrom
  rw [strtok_end pre ds post hds hpost]
  simp only [storeToken_junk]
  rw [populateLoop_stop _ _ _ _ _ rfl]
  rfl

/-- The populate code when only delimiters are left and no slot is free: the
store of the `End` token falls outside the array. -/
theorem populateFrom_delims_full (fuel : Nat) (pre ds post : List Char)
    (done : List Token) (hds : ∀ c ∈ ds, isDelimCase c = true) (hpost : Terminated post) :
    populateFrom fuel done done.length { mem := pre ++ (ds ++ post), save := pre.length } =
      .error (.outOfBounds done.length done.length) := by
  unfold populateFrom
  rw [strtok_end pre ds post hds hpost]
  simp only [storeToken_full]

theorem populateSpec_delims (junk : Token) (fuel : Nat) (pre ds post : List Char)
    (done : List Token) (m : Nat) (hds : ∀ c ∈ ds, isDelimCase c = true)
    (hpost : Terminated post) (hfuel : 1 ≤ fuel) :
    PopulateSpec junk fuel pre ds post done m := by
  have hw : Spec.words ds = [] := words_delims ds hds
  obtain ⟨f, rfl⟩ : ∃ f, fuel = f + 1 := ⟨fuel - 1, by omega⟩
  constructor
  · intro hm
    obtain ⟨m1, rfl⟩ : ∃ m1, m = m1 + 1 := ⟨m - 1, by omega⟩
    refine ⟨[{ type := .END, value := none }], ds, pre.length + ds.length, ?_, rfl, ?_⟩
    · rw [populateFrom_delims junk f pre ds post done m1 hds hpost, hw]
      simp
    · simp [Spec.tokenize, hw, Token.text]
  · intro hm
    rw [hw] at hm
    have hm0 : m = 0 := by simpa using hm
    subst hm0
    simp only [List.replicate_zero, List.append_nil, Nat.add_zero]
    exact populateFrom_delims_full _ pre ds post done hds hpost

/-- The populate code at a word: the word's token goes into the next free slot
and the code goes on behind the word; without a free slot the store is outside
the array. -/
theorem populateFrom_word (junk : Token) (fuel : Nat) (pre ds w r mem1 : List Char)
    (save1 : Nat) (done : List Token)
    (hst : strtok none delims { mem := pre ++ (ds ++ (w ++ r)), save := pre.length } =
      (some (pre.length + ds.length), { mem := mem1, save := save1 }))
    (hcstr : cstr mem1 (pre.length + ds.length) = w) :
    (∀ m, populateFrom (fuel + 1) (done ++ List.replicate (m + 1) junk) done.length
        { mem := pre ++ (ds ++ (w ++ r)), save := pre.length } =
      populateFrom fuel
        ((done ++ [Token.mk (Spec.classify (some w)) (some (pre.length + ds.length))]) ++
          List.replicate m junk)
        (done ++ [Token.mk (Spec.classify (some w)) (some (pre.length + ds.length))]).length
        { mem := mem1, save := save1 }) ∧
    (∀ f, populateFrom f done done.length
        { mem := pre ++ (ds ++ (w ++ r)), save := pre.length } =
      .error (.outOfBounds done.length done.length)) := by
  constructor
  · intro m
    conv_lhs => unfold populateFrom
    rw [hst]
    simp only [storeToken_junk, Option.map_some', hcstr]
    rw [populateLoop_continue _ _ _ _ _ _ rfl]
    simp
  · intro f
    unfold populateFrom
    rw [hst]
    simp only [storeToken_full]

theorem populateSpec_word (junk : Token) (fuel : Nat) (pre ds w x rest1 post r rest : List Char)
    (done : List Token) (m : Nat) (hw : IsWord w)
    (hx : ∀ y : List Char, y.length = rest1.length → Terminated (x ++ (y ++ post)))
    (hst : strtok none delims { mem := pre ++ (ds ++ (w ++ r)), save := pre.length } =
      (some (pre.length + ds.length),
        { mem := (pre ++ (ds ++ (w ++ x))) ++ (rest1 ++ post),
          save := (pre ++ (ds ++ (w ++ x))).length }))
    (hwords : Spec.words rest = w :: Spec.words rest1)
    (hrest : pre ++ (rest ++ post) = pre ++ (ds ++ (w ++ r)))
    (hlen : rest.length = (ds ++ (w ++ x)).length + rest1.length)
    (ih : ∀ done1 m1, PopulateSpec junk fuel (pre ++ (ds ++ (w ++ x))) rest1 post done1 m1) :
    PopulateSpec junk (fuel + 1) pre rest post done m := by
  have hmem : ∀ y : List Char, (pre ++ (ds ++ (w ++ x))) ++ (y ++ post) =
      (pre ++ ds) ++ (w ++ (x ++ (y ++ post))) := by
    intro y; simp
  have hmem2 : ∀ y : List Char, (pre ++ (ds ++ (w ++ x))) ++ (y ++ post) =
      pre ++ ((ds ++ (w ++ (x ++ y))) ++ post) := by
    intro y; simp
  have hc : ∀ y : List Char, y.length = rest1.length →
      cstr ((pre ++ (ds ++ (w ++ x))) ++ (y ++ post)) (pre.length + ds.length) = w := by
    intro y hy
    rw [hmem y, ← List.length_append]
    exact cstr_append _ _ _ (fun c hc => (hw.2 c hc).2) (hx y hy)
  obtain ⟨hstep, hfull⟩ := populateFrom_word junk fuel pre ds w r _ _ done hst (hc rest1 rfl)
  unfold PopulateSpec
  rw [hwords, hrest]
  constructor
  · intro hm
    obtain ⟨m1, rfl⟩ : ∃ m1, m = m1 + 1 := ⟨m - 1, by simp at hm; omega⟩
    obtain ⟨new1, rest1', s', heq, hlen1, hview⟩ :=
      (ih (done ++ [Token.mk (Spec.classify (some w)) (some (pre.length + ds.length))]) m1).1
        (by simp at hm; omega)
    refine ⟨Token.mk (Spec.classify (some w)) (some (pre.length + ds.length)) :: new1,
      ds ++ (w ++ (x ++ rest1')), s', ?_, ?_, ?_⟩
    · rw [hstep m1, heq, hmem2 rest1']
      simp
    · simp [hlen, hlen1] at *
      omega
    · rw [← hmem2 rest1', List.map_cons, hview]
      simp only [Token.text, Option.map_some', hc rest1' hlen1, Spec.tokenize, hwords,
        List.map_cons, List.cons_append]
  · intro hm
    cases m with
    | zero =>
      simp only [List.replicate_zero, List.append_nil, Nat.add_zero]
      exact hfull _
    | succ m1 =>
      rw [hstep m1, (ih _ m1).2 (by simp at hm; omega)]
      simp
      omega

/-- The populate code meets `PopulateSpec` on every `NUL`-free remainder, given
one unit of fuel per character and one more. -/
theorem populateSpec_holds (junk : Token) :
    ∀ (k : Nat) (rest : List Char), rest.length ≤ k →
    ∀ (fuel : Nat) (pre post : List Char) (done : List Token) (m : Nat),
      (∀ c ∈ rest, c ≠ NUL) → Terminated post → rest.length + 1 ≤ fuel →
      PopulateSpec junk fuel pre rest post done m := by
  intro k
  induction k with
  | zero =>
    intro rest hk fuel pre post done m _ hpost hfuel
    have h0 : rest = [] := List.length_eq_zero.mp (by omega)
    subst h0
    exact populateSpec_delims junk fuel pre [] post done m (by simp) hpost (by omega)
  | succ k ih =>
    intro rest hk fuel pre post done m hrest hpost hfuel
    rcases split_cases rest hrest with hall | ⟨ds, w, rfl, hds, hw⟩ |
      ⟨ds, w, d, tl, rfl, hds, hw, hd⟩
    · exact populateSpec_delims junk fuel pre rest post done m hall hpost (by omega)
    · have hwpos : 0 < w.length := List.length_pos.mpr hw.1
      obtain ⟨f, rfl⟩ : ∃ f, fuel = f + 1 := ⟨fuel - 1, by omega⟩
      apply populateSpec_word junk f pre ds w [] [] post post (ds ++ w) done m hw
      · intro y hy
        have hy0 : y = [] := List.length_eq_zero.mp (by simpa using hy)
        subst hy0
        simpa using hpost
      · rw [strtok_last pre ds w post hds hw hpost]
        simp [Nat.add_assoc]
      · rw [words_delims_append _ _ hds, words_word w hw, words_nil]
      · simp
      · simp
      · intro done1 m1
        apply populateSpec_delims junk f _ [] post done1 m1 (by simp) hpost
        simp at hfuel
        omega
    · obtain ⟨f, rfl⟩ : ∃ f, fuel = f + 1 := ⟨fuel - 1, by omega⟩
      apply populateSpec_word junk f pre ds w [NUL] tl post (d :: (tl ++ post))
        (ds ++ (w ++ d :: tl)) done m hw
      · intro y _
        rfl
      · rw [strtok_mid pre ds w d (tl ++ post) hds hw hd]
        simp [Nat.add_assoc]
      · rw [words_delims_append _ _ hds, words_word_cons w d tl hw hd]
      · simp
      · simp
        omega
      · intro done1 m1
        apply ih tl _ f _ post done1 m1 _ hpost
        · simp at hfuel
          omega
        · simp at hk
          omega
        · intro c hc
          apply hrest
          simp [hc]

/-! ## The counting pass -/

theorem countLoop_spec (line : List Char) (n : Nat) (post : List Char) :
    ∀ (l pre : List Char) (prev : Char) (fuel acc : Nat),
      line = pre ++ (prev :: (l ++ post)) → n = pre.length + 1 + l.length →
      (∀ c ∈ l, c ≠ NUL) → l.length + 1 ≤ fuel →
      countLoop line n fuel (pre.length + 1) acc = .ok (acc + wordEnds prev l) := by
  intro l
  induction l with
  | nil =>
    intro pre prev fuel acc _ hn _ hfuel
    obtain ⟨f, rfl⟩ : ∃ f, fuel = f + 1 := ⟨fuel - 1, by omega⟩
    simp at hn
    simp [countLoop, wordEnds, hn]
  | cons c l ih =>
    intro pre prev fuel acc hline hn hnul hfuel
    obtain ⟨f, rfl⟩ : ∃ f, fuel = f + 1 := ⟨fuel - 1, by omega⟩
    have hlt : pre.length + 1 < n := by simp at hn; omega
    have hline2 : line = (pre ++ [prev]) ++ (c :: (l ++ post)) := by rw [hline]; simp
    have hi : charAt line (pre.length + 1) = c := by
      have := charAt_append (pre ++ [prev]) (c :: (l ++ post))
      rw [← hline2] at this
      simpa using this
    have hp : charAt line (pre.length + 1 - 1) = prev := by
      have := charAt_append pre (prev :: (c :: l ++ post))
      rw [← hline] at this
      simpa using this
    have hc : c ≠ NUL := hnul c (by simp)
    have := ih (pre ++ [prev]) c f
      (if isDelimCase c then (if isDelimCase prev then acc else acc + 1) else acc)
      hline2 (by simp at hn ⊢; omega) (fun x hx => hnul x (by simp [hx]))
      (by simp at hfuel; omega)
    simp only [List.length_append, List.length_singleton] at this
    simp only [countLoop, hlt, if_true, hi, hp, hc, if_false, this, wordEnds]
    cases isDelimCase c <;> cases isDelimCase prev <;> simp; omega

/-- The counting loop on a string of length `n`: it stops within its budget
with `argCountOf`. -/
theorem countLoop_eq (body post : List Char) (hbody : ∀ c ∈ body, c ≠ NUL) :
    countLoop (body ++ post) body.length (body.length + 1) 1 0 = .ok (argCountOf body) := by
  cases body with
  | nil => simp [countLoop, argCountOf]
  | cons c l =>
    have := countLoop_spec (c :: l ++ post) (c :: l).length post l [] c ((c :: l).length + 1) 0
      (by simp) (by simp; omega) (fun x hx => hbody x (by simp [hx])) (by simp)
    simpa [argCountOf] using this

theorem words_length_cons_cons (a c : Char) (l : List Char) (ha : isDelimCase a = false)
    (hc : isDelimCase c = false) :
    (Spec.words (a :: c :: l)).length = (Spec.words (c :: l)).length := by
  cases hs : List.splitOnP Spec.isDelimiter l with
  | nil => exact absurd hs (List.splitOnP_ne_nil _ _)
  | cons h t =>
    simp [Spec.words, List.splitOnP_cons, isDelimiter_eq, ha, hc, hs, List.modifyHead]

theorem endsInWord_cons_cons (a c : Char) (l : List Char) :
    endsInWord (a :: c :: l) = endsInWord (c :: l) := by
  simp [endsInWord, List.getLast?_cons_cons]

/-- The words of a line are its word ends: those followed by a delimiter, which
the loop counts, and the one at the end of the line, which it does not. -/
theorem words_length_cons (prev : Char) (l : List Char) :
    (Spec.words (prev :: l)).length =
      wordEnds prev l + (if endsInWord (prev :: l) then 1 else 0) := by
  induction l generalizing prev with
  | nil =>
    cases hp : isDelimCase prev
    · have hw : Spec.words [prev] = [[prev]] :=
        words_run [prev] (by simp) (fun c hc => by simp at hc; rw [hc]; exact hp)
      simp [hw, wordEnds, endsInWord, hp]
    · simp [words_delim_cons _ _ hp, words_nil, wordEnds, endsInWord, hp]
  | cons c l ih =>
    rw [endsInWord_cons_cons, wordEnds]
    cases hp : isDelimCase prev
    · cases hc : isDelimCase c
      · rw [words_length_cons_cons _ _ _ hp hc, ih c]
        simp [hc]
      · have hw := words_run_cons [prev] c l (by simp)
          (fun x hx => by simp at hx; rw [hx]; exact hp) hc
        rw [List.singleton_append] at hw
        rw [hw, List.length_cons, ← words_delim_cons c l hc, ih c]
        simp [hc, hp]
        omega
    · rw [words_delim_cons _ _ hp, ih c]
      simp [hp]

/-! ## `parse_tokens` as a whole -/

theorem words_length (body : List Char) :
    (Spec.words body).length = argCountOf body + (if endsInWord body then 1 else 0) := by
  cases body with
  | nil => simp [words_nil, argCountOf, endsInWord]
  | cons c l => exact words_length_cons c l

theorem parse_tokens_eq (junk : Token) (line : List Char) (n : Nat) :
    parse_tokens junk line n =
      match countLoop line n (n + 1) 1 0 with
      | .error e => .error e
      | .ok argCount =>
        match populateFrom (line.length + 2) (List.replicate (argCount + 1) junk) 0
            { mem := line, save := 0 } with
        | .error e => .error e
        | .ok (tokens, st) => .ok { tokens := tokens, line := st.mem } := by
  unfold parse_tokens populateFrom
  rw [strtok_some_zero]
  cases countLoop line n (n + 1) 1 0 with
  | error e => rfl
  | ok a =>
    simp only
    cases storeToken (strtok none delims { mem := line, save := 0 }).2.mem
      (List.replicate (a + 1) junk) 0 (strtok none delims { mem := line, save := 0 }).1 with
    | error e => rfl
    | ok tokens => rfl

/-- On a line that is empty or ends in a delimiter `parse_tokens` returns, and
the array it returns holds the token stream of the line; the buffer keeps its
length and what follows the string. -/
theorem parse_tokens_ok (junk : Token) (body post : List Char)
    (hbody : ∀ c ∈ body, c ≠ NUL) (hpost : Terminated post) (hend : endsInWord body = false) :
    ∃ r, parse_tokens junk (body ++ post) body.length = .ok r ∧
      r.stream = Spec.tokenize body ∧
      ∃ body', r.line = body' ++ post ∧ body'.length = body.length := by
  have hspec := populateSpec_holds junk body.length body (le_refl _) ((body ++ post).length + 2)
    [] post [] (argCountOf body + 1) hbody hpost (by simp; omega)
  have hlen := words_length body
  rw [hend] at hlen
  obtain ⟨new, rest', s', heq, hl, hview⟩ := hspec.1 (by simp at hlen; omega)
  simp only [List.nil_append, List.length_nil] at heq hview
  refine ⟨{ tokens := new, line := rest' ++ post }, ?_, ?_, rest', rfl, hl⟩
  · rw [parse_tokens_eq, countLoop_eq body post hbody]
    simp only [heq]
    simp at hlen
    simp [hlen]
  · simpa [ParseResult.stream] using hview

/-- On a line whose last character belongs to a word, `parse_tokens` stores
the `End` token one slot past the end of the array it allocated. -/
theorem parse_tokens_overflow (junk : Token) (body post : List Char)
    (hbody : ∀ c ∈ body, c ≠ NUL) (hpost : Terminated post) (hend : endsInWord body = true) :
    parse_tokens junk (body ++ post) body.length =
      .error (.outOfBounds (Spec.words body).length (Spec.words body).length) := by
  have hspec := populateSpec_holds junk body.length body (le_refl _) ((body ++ post).length + 2)
    [] post [] (argCountOf body + 1) hbody hpost (by simp; omega)
  have hlen := words_length body
  rw [hend] at hlen
  simp only [if_true] at hlen
  have herr := hspec.2 (by omega)
  simp only [List.nil_append, List.length_nil] at herr
  rw [parse_tokens_eq, countLoop_eq body post hbody]
  simp only [herr]
  simp [hlen]

theorem classify_some_ne_END (w : List Char) : Spec.classify (some w) ≠ .END := by
  simp only [Spec.classify]
  split_ifs <;> decide

theorem classify_some_literal (w : List Char) :
    (Spec.classify (some w) = .EXIT → w = "exit".toList) ∧
    (Spec.classify (some w) = .PIPE → w = "|".toList) ∧
    (Spec.classify (some w) = .REDIRECT_IN → w = "<".toList) ∧
    (Spec.classify (some w) = .REDIRECT_OUT → w = ">".toList) ∧
    (Spec.classify (some w) = .BACKGROUND → w = "&".toList) := by
  simp only [Spec.classify]
  split_ifs <;> simp_all

theorem classify_some_DEFAULT (w : List Char) :
    Spec.classify (some w) = .DEFAULT ↔
      w ≠ "exit".toList ∧ w ≠ "|".toList ∧ w ≠ "<".toList ∧ w ≠ ">".toList ∧
        w ≠ "&".toList := by
  simp only [Spec.classify]
  split_ifs <;> simp_all

theorem not_mem_NUL {line : List Char} (h : NUL ∉ line) : ∀ c ∈ line, c ≠ NUL := by
  intro c hc hn
  exact h (hn ▸ hc)

theorem all_isDelimiter {line : List Char} (h : line.all Spec.isDelimiter = true) :
    ∀ c ∈ line, isDelimCase c = true := by
  intro c hc
  rw [← isDelimiter_eq]
  exact List.all_eq_true.mp h c hc

theorem argCountOf_delims (line : List Char) (h : ∀ c ∈ line, isDelimCase c = true) :
    argCountOf line = 0 := by
  have := words_length line
  rw [words_delims line h, List.length_nil] at this
  omega

theorem countLoop_fuel (line : List Char) (n : Nat) :
    ∀ (fuel i acc : Nat), n ≤ fuel + i →
      countLoop line n (fuel + 1) i acc ≠ .error .outOfFuel := by
  intro fuel
  induction fuel with
  | zero =>
    intro i acc h
    have hi : ¬ i < n := by omega
    simp [countLoop, hi]
  | succ f ih =>
    intro i acc h
    rw [countLoop]
    by_cases h1 : i < n
    · by_cases h2 : charAt line i = NUL
      · simp [h1, h2]
      · simp only [h1, h2, if_true, if_false]
        exact ih _ _ (by omega)
    · simp [h1]

/-- Every buffer is a `NUL`-free string followed by a terminated remainder. -/
theorem string_split (line : List Char) :
    ∃ body post, line = body ++ post ∧ (∀ c ∈ body, c ≠ NUL) ∧ Terminated post := by
  refine ⟨line.takeWhile (fun c => c != NUL), line.dropWhile (fun c => c != NUL),
    (List.takeWhile_append_dropWhile _ _).symm, ?_, ?_⟩
  · intro c hc
    simpa using List.mem_takeWhile_imp hc
  · cases h : line.dropWhile (fun c => c != NUL) with
    | nil => rfl
    | cons x xs =>
      have := List.head_dropWhile_not (fun c => c != NUL) line (by rw [h]; simp)
      simpa [h, Terminated] using this

/-- The iteration budgets of the model are never used up: whatever the buffer
and `n`, `parse_tokens` returns or stores outside the array. -/
theorem parse_tokens_fuel (junk : Token) (line : List Char) (n : Nat) :
    parse_tokens junk line n ≠ .error .outOfFuel := by
  rw [parse_tokens_eq]
  cases hc : countLoop line n (n + 1) 1 0 with
  | error e =>
    intro h
    have h2 : e = Fault.outOfFuel := by simpa using h
    rw [h2] at hc
    exact countLoop_fuel line n n 1 0 (by omega) hc
  | ok a =>
    obtain ⟨body, post, rfl, hbody, hpost⟩ := string_split line
    have hspec := populateSpec_holds junk body.length body (le_refl _)
      ((body ++ post).length + 2) [] post [] (a + 1) hbody hpost (by simp; omega)
    unfold PopulateSpec at hspec
    simp only [List.nil_append, List.length_nil] at hspec
    by_cases hm : (Spec.words body).length + 1 ≤ a + 1
    · obtain ⟨new, rest1, s1, heq, _, _⟩ := hspec.1 hm
      simp only [heq]
      simp
    · have herr := hspec.2 (by omega)
      simp only [herr]
      simp

theorem endsInWord_of_run (w : List Char) (hne : w ≠ [])
    (hnd : ∀ c ∈ w, isDelimCase c = false) : endsInWord w = true := by
  unfold endsInWord
  rw [List.getLast?_eq_getLast _ hne]
  simp [hnd _ (List.getLast_mem hne)]

/-- A line that is a single word always overflows the one-slot array it gets. -/
theorem parse_tokens_word (junk : Token) (w : List Char) (hne : w ≠ []) (hnul : NUL ∉ w)
    (hnd : ∀ c ∈ w, isDelimCase c = false) :
    parse_tokens junk w w.length = .error (.outOfBounds 1 1) := by
  have h := parse_tokens_overflow junk w [] (fun c hc hn => hnul (hn ▸ hc)) terminated_nil
    (endsInWord_of_run w hne hnd)
  rw [List.append_nil, words_run w hne hnd] at h
  exact h

/-! ## The claims -/

/-- C1. `parse_tokens` does not produce the token stream of every line: on the
line `cat < in.txt > out.txt &` (the specification's example without its final
newline) the counting pass sizes the array for six tokens, the populate pass
stores the six word tokens and then the `End` token in `tokens[6]`, outside the
array; the stream the specification describes has seven tokens. -/
theorem parse_tokens_unterminated_line_overflows (junk : Token) :
    parse_tokens junk "cat < in.txt > out.txt &".toList 24 = .error (.outOfBounds 6 6) ∧
    (Spec.tokenize "cat < in.txt > out.txt &".toList).length = 7 ∧
    (parse_tokens junk "cat < in.txt > out.txt &\n".toList 25).map ParseResult.stream =
      .ok [(.DEFAULT, some "cat".toList), (.REDIRECT_IN, some "<".toList),
        (.DEFAULT, some "in.txt".toList), (.REDIRECT_OUT, some ">".toList),
        (.DEFAULT, some "out.txt".toList), (.BACKGROUND, some "&".toList), (.END, none)] :=
  ⟨rfl, rfl, rfl⟩

/-- C2. The function `assign_token_type` implements the classification table,
exactly and case-sensitively: it leaves `value` alone and stores `END` exactly
for an absent text, `EXIT`, `PIPE`, `REDIRECT_IN`, `REDIRECT_OUT`, `BACKGROUND`
exactly for the texts `exit`, `|`, `<`, `>`, `&`, and `DEFAULT` exactly for
every other text; so `EXIT`, `exit1`, `||` and `>>` are words. -/
theorem assign_token_type_table (mem : List Char) (token : Token) :
    ((assign_token_type mem token).value = token.value ∧
      ((assign_token_type mem token).type = .END ↔ token.text mem = none) ∧
      ((assign_token_type mem token).type = .EXIT ↔ token.text mem = some "exit".toList) ∧
      ((assign_token_type mem token).type = .PIPE ↔ token.text mem = some "|".toList) ∧
      ((assign_token_type mem token).type = .REDIRECT_IN ↔
        token.text mem = some "<".toList) ∧
      ((assign_token_type mem token).type = .REDIRECT_OUT ↔
        token.text mem = some ">".toList) ∧
      ((assign_token_type mem token).type = .BACKGROUND ↔
        token.text mem = some "&".toList) ∧
      ((assign_token_type mem token).type = .DEFAULT ↔
        ∃ w, token.text mem = some w ∧ w ≠ "exit".toList ∧ w ≠ "|".toList ∧
          w ≠ "<".toList ∧ w ≠ ">".toList ∧ w ≠ "&".toList)) ∧
    assign_token_type "EXIT".toList ⟨token.type, some 0⟩ = ⟨.DEFAULT, some 0⟩ ∧
    assign_token_type "exit1".toList ⟨token.type, some 0⟩ = ⟨.DEFAULT, some 0⟩ ∧
    assign_token_type "||".toList ⟨token.type, some 0⟩ = ⟨.DEFAULT, some 0⟩ ∧
    assign_token_type ">>".toList ⟨token.type, some 0⟩ = ⟨.DEFAULT, some 0⟩ := by
  refine ⟨?_, rfl, rfl, rfl, rfl⟩
  rw [assign_token_type_eq]
  cases ht : token.text mem with
  | none => simp [Spec.classify]
  | some w =>
    have h1 := classify_some_ne_END w
    have h2 := classify_some_DEFAULT w
    simp only [Option.some.injEq, exists_eq_left', reduceCtorEq, iff_false, true_and]
    refine ⟨h1, ?_, ?_, ?_, ?_, ?_, h2⟩ <;>
    · simp only [Spec.classify]
      constructor
      · intro h
        split_ifs at h
        all_goals simp_all
      · intro h
        subst h
        decide

/-- C3. The array `parse_tokens` returns is not always terminated by `End`: for
the line `exit` the counting pass finds no delimiter, one slot is allocated, it
receives the `Exit` token, and the `End` token is stored in `tokens[1]`, outside
the array. -/
theorem parse_tokens_end_outside_array (junk : Token) :
    countLoop "exit".toList 4 5 1 0 = .ok 0 ∧
    parse_tokens junk "exit".toList 4 = .error (.outOfBounds 1 1) :=
  ⟨rfl, rfl⟩

/-- C4. In every stream `parse_tokens` returns, a token has no text exactly
when its kind is `END`, and a token of kind `EXIT`, `PIPE`, `REDIRECT_IN`,
`REDIRECT_OUT`, `BACKGROUND` has the text `exit`, `|`, `<`, `>`, `&`. -/
theorem returned_token_invariant (junk : Token) (line : List Char) (r : ParseResult)
    (t : Token) (hline : NUL ∉ line) (hr : parse_tokens junk line line.length = .ok r)
    (ht : t ∈ r.tokens) :
    (t.text r.line = none ↔ t.type = .END) ∧
    (t.type = .EXIT → t.text r.line = some "exit".toList) ∧
    (t.type = .PIPE → t.text r.line = some "|".toList) ∧
    (t.type = .REDIRECT_IN → t.text r.line = some "<".toList) ∧
    (t.type = .REDIRECT_OUT → t.text r.line = some ">".toList) ∧
    (t.type = .BACKGROUND → t.text r.line = some "&".toList) := by
  cases he : endsInWord line with
  | true =>
    have h := parse_tokens_overflow junk line [] (not_mem_NUL hline) terminated_nil he
    rw [List.append_nil, hr] at h
    cases h
  | false =>
    obtain ⟨r1, hr1, hs, _⟩ := parse_tokens_ok junk line [] (not_mem_NUL hline) terminated_nil he
    rw [List.append_nil, hr] at hr1
    cases hr1
    have hmem : (t.type, t.text r.line) ∈ r.stream :=
      List.mem_map_of_mem (fun t => (t.type, t.text r.line)) ht
    rw [hs, Spec.tokenize] at hmem
    rcases List.mem_append.mp hmem with h | h
    · obtain ⟨w, _, hw⟩ := List.mem_map.mp h
      have h1 : Spec.classify (some w) = t.type := congrArg Prod.fst hw
      have h2 : some w = t.text r.line := congrArg Prod.snd hw
      have h3 := classify_some_ne_END w
      obtain ⟨h4, h5, h6, h7, h8⟩ := classify_some_literal w
      rw [← h1, ← h2]
      refine ⟨by simp [h3], ?_, ?_, ?_, ?_, ?_⟩ <;>
      · intro h
        simp_all
    · have h0 : (t.type, t.text r.line) = (TokenType.END, none) := by simpa using h
      have h1 : t.type = .END := congrArg Prod.fst h0
      have h2 : t.text r.line = none := congrArg Prod.snd h0
      simp [h1, h2]

/-- C4, at the line `exit` followed by a newline and its first token. -/
theorem returned_token_invariant_witness :
    NUL ∉ "exit\n".toList ∧
    parse_tokens ⟨.DEFAULT, some 9⟩ "exit\n".toList "exit\n".toList.length =
      .ok ⟨[⟨.EXIT, some 0⟩, ⟨.END, none⟩], ['e', 'x', 'i', 't', NUL]⟩ ∧
    (⟨.EXIT, some 0⟩ : Token) ∈ [(⟨.EXIT, some 0⟩ : Token), ⟨.END, none⟩] ∧
    ((Token.text ['e', 'x', 'i', 't', NUL] ⟨.EXIT, some 0⟩ = none ↔
        TokenType.EXIT = TokenType.END) ∧
      (TokenType.EXIT = TokenType.EXIT →
        Token.text ['e', 'x', 'i', 't', NUL] ⟨.EXIT, some 0⟩ = some "exit".toList) ∧
      (TokenType.EXIT = TokenType.PIPE →
        Token.text ['e', 'x', 'i', 't', NUL] ⟨.EXIT, some 0⟩ = some "|".toList) ∧
      (TokenType.EXIT = TokenType.REDIRECT_IN →
        Token.text ['e', 'x', 'i', 't', NUL] ⟨.EXIT, some 0⟩ = some "<".toList) ∧
      (TokenType.EXIT = TokenType.REDIRECT_OUT →
        Token.text ['e', 'x', 'i', 't', NUL] ⟨.EXIT, some 0⟩ = some ">".toList) ∧
      (TokenType.EXIT = TokenType.BACKGROUND →
        Token.text ['e', 'x', 'i', 't', NUL] ⟨.EXIT, some 0⟩ = some "&".toList)) :=
  ⟨by decide, rfl, by simp,
    returned_token_invariant ⟨.DEFAULT, some 9⟩ "exit\n".toList
      ⟨[⟨.EXIT, some 0⟩, ⟨.END, none⟩], ['e', 'x', 'i', 't', NUL]⟩ ⟨.EXIT, some 0⟩
      (by decide) rfl (by simp)⟩

/-- C5. For a line made only of spaces, tabs and newlines (the empty line
included) `parse_tokens` returns a single token, of kind `END` and without
text, and leaves the buffer as it was. -/
theorem parse_tokens_blank (junk : Token) (line : List Char)
    (hblank : line.all Spec.isDelimiter = true) :
    parse_tokens junk line line.length =
      .ok { tokens := [{ type := .END, value := none }], line := line } := by
  have hd := all_isDelimiter hblank
  have hc := countLoop_eq line [] (fun c hc => isDelimCase_ne_NUL (hd c hc))
  have hp := populateFrom_delims junk (line.length + 1) [] line [] [] 0 hd terminated_nil
  simp only [List.append_nil, List.nil_append, List.length_nil, List.replicate_zero] at hc hp
  rw [parse_tokens_eq, hc, argCountOf_delims line hd]
  simp only [Nat.zero_add, hp]

/-- C5, at the line made of a space, a tab and a newline. -/
theorem parse_tokens_blank_witness :
    " \t\n".toList.all Spec.isDelimiter = true ∧
    parse_tokens ⟨.DEFAULT, some 9⟩ " \t\n".toList " \t\n".toList.length =
      .ok { tokens := [{ type := .END, value := none }], line := " \t\n".toList } :=
  ⟨by decide, parse_tokens_blank ⟨.DEFAULT, some 9⟩ " \t\n".toList (by decide)⟩

/-- C6. `parse_tokens` applied to a bare word does not yield the word and the
`End` token: for `ls` one slot is allocated, it receives the word, and the `End`
token is stored in `tokens[1]`, outside the array. -/
theorem parse_tokens_bare_word_overflows (junk : Token) :
    Spec.tokenize "ls".toList = [(.DEFAULT, some "ls".toList), (.END, none)] ∧
    parse_tokens junk "ls".toList 2 = .error (.outOfBounds 1 1) :=
  ⟨rfl, rfl⟩

/-- C7. A line without its newline does not tokenize like the line with it:
`ls -la` followed by a newline yields two words and `End`, `ls -la` alone makes
`parse_tokens` store the `End` token in `tokens[2]` of a two-slot array. -/
theorem parse_tokens_without_newline_differs (junk : Token) :
    (parse_tokens junk "ls -la\n".toList 7).map ParseResult.stream =
      .ok [(.DEFAULT, some "ls".toList), (.DEFAULT, some "-la".toList), (.END, none)] ∧
    parse_tokens junk "ls -la".toList 6 = .error (.outOfBounds 2 2) :=
  ⟨rfl, rfl⟩

/-- C8. The lines `a   b`, `a<TAB>b` and `a<NEWLINE> b` do not yield two words
and `End`: on each of them `parse_tokens` stores the `End` token in `tokens[2]`
of a two-slot array. -/
theorem parse_tokens_collapse_examples_overflow (junk : Token) :
    parse_tokens junk "a   b".toList 5 = .error (.outOfBounds 2 2) ∧
    parse_tokens junk "a\tb".toList 3 = .error (.outOfBounds 2 2) ∧
    parse_tokens junk "a\n b".toList 4 = .error (.outOfBounds 2 2) :=
  ⟨rfl, rfl, rfl⟩

/-- C9. The counting pass does not size the array for every line: for `a b c`
it ends with `argCount = 2`, three slots are allocated, the stream has four
tokens, and the fourth store, `tokens[3]`, is outside the array. -/
theorem count_pass_undersizes_array (junk : Token) :
    countLoop "a b c".toList 5 6 1 0 = .ok 2 ∧
    (Spec.tokenize "a b c".toList).length = 4 ∧
    parse_tokens junk "a b c".toList 5 = .error (.outOfBounds 3 3) :=
  ⟨rfl, rfl, rfl⟩

/-- C10. The driver does not end with status 0 on every line that starts with
a word: when standard input holds `ls` and then ends, `parse_tokens` stores
outside the token array before any exit status is chosen. -/
theorem main_unterminated_line_faults (junk : Token) (nullStr : List Char) :
    fgets MAX_LINE "ls".toList = some "ls".toList ∧
    main junk nullStr "ls".toList = .error (.outOfBounds 1 1) ∧
    main junk nullStr "ls\n".toList = .ok { status := 0, stdout := "ls ".toList, stderr := [] } :=
  ⟨rfl, rfl, rfl⟩

theorem endsInWord_eq_false_iff (line : List Char) :
    endsInWord line = false ↔
      line = [] ∨ ∃ c, line.getLast? = some c ∧ Spec.isDelimiter c = true := by
  unfold endsInWord
  cases h : line.getLast? with
  | none =>
    have : line = [] := List.getLast?_eq_none_iff.mp h
    simp [this]
  | some c =>
    have : line ≠ [] := by
      intro h0
      rw [h0] at h
      simp at h
    simp [isDelimiter_eq, this]

theorem endsInWord_eq_true_iff (line : List Char) :
    endsInWord line = true ↔ ∃ c, line.getLast? = some c ∧ Spec.isDelimiter c = false := by
  unfold endsInWord
  cases h : line.getLast? with
  | none => simp
  | some c => simp [isDelimiter_eq]

/-- C14. For a `NUL`-free line of length `n` the counting loop of `parse_tokens`
ends with `argCount` equal to the number of words when the line is empty or its
last character is a space, tab or newline, and to the number of words minus
one when its last character is any other character. -/
theorem argCount_exact (line : List Char) (hline : NUL ∉ line) :
    ∃ argCount, countLoop line line.length (line.length + 1) 1 0 = .ok argCount ∧
      ((line = [] ∨ ∃ c, line.getLast? = some c ∧ Spec.isDelimiter c = true) →
        argCount = (Spec.words line).length) ∧
      ((∃ c, line.getLast? = some c ∧ Spec.isDelimiter c = false) →
        argCount + 1 = (Spec.words line).length) := by
  have hc := countLoop_eq line [] (not_mem_NUL hline)
  rw [List.append_nil] at hc
  have hw := words_length line
  refine ⟨argCountOf line, hc, ?_, ?_⟩
  · intro h
    rw [(endsInWord_eq_false_iff line).mpr h] at hw
    simpa using hw.symm
  · intro h
    rw [(endsInWord_eq_true_iff line).mpr h] at hw
    simpa using hw.symm

/-- C14, at the line `a b`: one delimiter follows a word, two words. -/
theorem argCount_exact_witness :
    NUL ∉ "a b".toList ∧
    ∃ argCount, countLoop "a b".toList "a b".toList.length ("a b".toList.length + 1) 1 0 =
        .ok argCount ∧
      (("a b".toList = [] ∨
          ∃ c, "a b".toList.getLast? = some c ∧ Spec.isDelimiter c = true) →
        argCount = (Spec.words "a b".toList).length) ∧
      ((∃ c, "a b".toList.getLast? = some c ∧ Spec.isDelimiter c = false) →
        argCount + 1 = (Spec.words "a b".toList).length) :=
  ⟨by decide, argCount_exact "a b".toList (by decide)⟩

/-! ## What `parse_tokens` does to the line buffer -/

theorem Nulled.refl (mem : List Char) : Nulled mem mem :=
  ⟨rfl, fun _ => Or.inl rfl⟩

theorem Nulled.trans {a b c : List Char} (hab : Nulled a b) (hbc : Nulled b c) :
    Nulled a c := by
  refine ⟨hbc.1.trans hab.1, fun i => ?_⟩
  rcases hbc.2 i with h | ⟨hd, hn⟩
  · rw [h]
    exact hab.2 i
  · rcases hab.2 i with h2 | ⟨hd2, hn2⟩
    · rw [h2] at hd
      exact Or.inr ⟨hd, hn⟩
    · exact Or.inr ⟨hd2, hn⟩

theorem charAt_drop (mem : List Char) (s k : Nat) :
    charAt (mem.drop s) k = charAt mem (s + k) := by
  simp [charAt, List.getD_eq_getElem?_getD]

theorem charAt_lt {mem : List Char} {i : Nat} (h : charAt mem i ≠ NUL) : i < mem.length := by
  by_contra hlt
  apply h
  simp [charAt, List.getD_eq_getElem?_getD, List.getElem?_eq_none (Nat.le_of_not_lt hlt)]

theorem charAt_set (mem : List Char) (e i : Nat) (x : Char) :
    charAt (mem.set e x) i = if e = i ∧ i < mem.length then x else charAt mem i := by
  simp only [charAt, List.getD_eq_getElem?_getD, List.getElem?_set]
  by_cases h1 : e = i
  · subst h1
    by_cases h2 : e < mem.length
    · simp [h2]
    · simp [h2, List.getElem?_eq_none (Nat.le_of_not_lt h2)]
  · simp [h1]

/-- The scan of `strcspn` stops on a delimiter or on the terminator. -/
theorem strcspn_stop (l : List Char) :
    charAt l (strcspn l delims) = NUL ∨ isDelimCase (charAt l (strcspn l delims)) = true := by
  induction l with
  | nil => left; rfl
  | cons c l ih =>
    by_cases hp : (c != NUL && !decide (c ∈ delims)) = true
    · have hk : strcspn (c :: l) delims = strcspn l delims + 1 := by
        simp only [strcspn, List.takeWhile_cons, hp, if_true, List.length_cons]
      rw [hk]
      simpa [charAt] using ih
    · have hk : strcspn (c :: l) delims = 0 := by
        simp only [strcspn, List.takeWhile_cons, hp, if_false, List.length_nil]
        simp
      rw [hk]
      simp only [Bool.and_eq_true, bne_iff_ne, ne_eq, Bool.not_eq_true', decide_eq_false_iff_not,
        not_and, Decidable.not_not] at hp
      by_cases hc : c = NUL
      · left
        simpa [charAt] using hc
      · right
        have := hp hc
        rw [← mem_delims]
        simpa [charAt] using this

/-- A call of `strtok` only overwrites a delimiter with `NUL`, and the token it
returns starts inside the buffer. -/
theorem strtok_nulled (str : Option Nat) (st : CState) :
    Nulled st.mem (strtok str delims st).2.mem ∧
    ∀ p, (strtok str delims st).1 = some p → p < st.mem.length := by
  unfold strtok
  simp only
  split_ifs with h1 h2
  · exact ⟨Nulled.refl _, fun p hp => by simp at hp⟩
  · refine ⟨Nulled.refl _, fun p hp => ?_⟩
    simp only [Option.some.injEq] at hp
    rw [← hp]
    exact charAt_lt h1
  · refine ⟨⟨by simp, fun i => ?_⟩, fun p hp => ?_⟩
    · simp only [charAt_set]
      split_ifs with h3
      · right
        refine ⟨?_, rfl⟩
        rw [← h3.1]
        rcases strcspn_stop (List.drop _ st.mem) with h | h
        · rw [charAt_drop] at h
          exact absurd h h2
        · rw [charAt_drop] at h
          exact h
      · left; rfl
    · simp only [Option.some.injEq] at hp
      rw [← hp]
      exact charAt_lt h1

theorem populateLoop_nulled :
    ∀ (fuel : Nat) (tokens : List Token) (i : Nat) (st : CState)
      (res : List Token × CState),
      populateLoop fuel tokens i st = .ok res → Nulled st.mem res.2.mem := by
  intro fuel
  induction fuel with
  | zero =>
    intro tokens i st res h
    simp [populateLoop] at h
  | succ f ih =>
    intro tokens i st res h
    rw [populateLoop] at h
    cases ht : tokens[i]? with
    | none => simp [ht] at h
    | some t =>
      cases hv : t.value with
      | none =>
        simp only [ht, hv] at h
        cases h
        exact Nulled.refl _
      | some p =>
        simp only [ht, hv] at h
        cases hs : storeToken (strtok none delims st).2.mem tokens (i + 1)
            (strtok none delims st).1 with
        | error e => simp [hs] at h
        | ok tokens1 =>
          simp only [hs] at h
          exact (strtok_nulled none st).1.trans (ih _ _ _ _ h)

/-- A run of `parse_tokens` that returns leaves the line buffer with its length
and with every byte unchanged or turned from a delimiter into `NUL`. -/
theorem parse_tokens_nulled (junk : Token) (line : List Char) (n : Nat) (r : ParseResult)
    (h : parse_tokens junk line n = .ok r) : Nulled line r.line := by
  unfold parse_tokens at h
  cases hc : countLoop line n (n + 1) 1 0 with
  | error e => simp [hc] at h
  | ok a =>
    simp only [hc] at h
    cases hs : storeToken (strtok (some 0) delims { mem := line, save := 0 }).2.mem
        (List.replicate (a + 1) junk) 0
        (strtok (some 0) delims { mem := line, save := 0 }).1 with
    | error e => simp [hs] at h
    | ok tokens1 =>
      simp only [hs] at h
      cases hp : populateLoop (line.length + 2) tokens1 0
          (strtok (some 0) delims { mem := line, save := 0 }).2 with
      | error e => simp [hp] at h
      | ok res =>
        simp only [hp] at h
        cases h
        exact (strtok_nulled (some 0) { mem := line, save := 0 }).1.trans
          (populateLoop_nulled _ _ _ _ _ hp)

theorem splitOnP_no_delim (l : List Char) :
    ∀ w ∈ l.splitOnP Spec.isDelimiter, ∀ c ∈ w, Spec.isDelimiter c = false := by
  induction l with
  | nil =>
    intro w hw c hc
    simp [List.splitOnP_nil] at hw
    subst hw
    simp at hc
  | cons x xs ih =>
    intro w hw c hc
    rw [List.splitOnP_cons] at hw
    by_cases hx : Spec.isDelimiter x = true
    · simp only [hx, if_true, List.mem_cons] at hw
      rcases hw with hw | hw
      · subst hw
        simp at hc
      · exact ih w hw c hc
    · cases hs : List.splitOnP Spec.isDelimiter xs with
      | nil => exact absurd hs (List.splitOnP_ne_nil _ _)
      | cons h t =>
        rw [hs] at ih
        have hw2 : w = x :: h ∨ w ∈ t := by
          simpa [hx, hs, List.modifyHead] using hw
        rcases hw2 with hw2 | hw2
        · subst hw2
          simp only [List.mem_cons] at hc
          rcases hc with hc | hc
          · subst hc
            simpa using hx
          · exact ih h (by simp) c hc
        · exact ih w (by simp [hw2]) c hc

/-- The words of a line are not empty and hold no delimiter. -/
theorem mem_words (line w : List Char) (h : w ∈ Spec.words line) :
    w ≠ [] ∧ ∀ c ∈ w, isDelimCase c = false := by
  unfold Spec.words at h
  rw [List.mem_filter] at h
  refine ⟨by simpa using h.2, fun c hc => ?_⟩
  rw [← isDelimiter_eq]
  exact splitOnP_no_delim line w h.1 c hc

theorem cstr_ne_nil_lt {mem : List Char} {p : Nat} (h : cstr mem p ≠ []) : p < mem.length := by
  by_contra hlt
  apply h
  simp [cstr, List.drop_eq_nil_of_le (Nat.le_of_not_lt hlt)]

/-- On a line for which `parse_tokens` returns, every token that has a text
points into the line buffer. -/
theorem parse_tokens_values (junk : Token) (line : List Char) (r : ParseResult)
    (hline : NUL ∉ line) (hr : parse_tokens junk line line.length = .ok r) :
    ∀ t ∈ r.tokens, ∀ p, t.value = some p → p < r.line.length := by
  intro t ht p hp
  cases he : endsInWord line with
  | true =>
    have h := parse_tokens_overflow junk line [] (not_mem_NUL hline) terminated_nil he
    rw [List.append_nil, hr] at h
    cases h
  | false =>
    obtain ⟨r1, hr1, hs, _⟩ := parse_tokens_ok junk line [] (not_mem_NUL hline) terminated_nil he
    rw [List.append_nil, hr] at hr1
    cases hr1
    have hmem : (t.type, t.text r.line) ∈ r.stream :=
      List.mem_map_of_mem (fun t => (t.type, t.text r.line)) ht
    rw [hs, Spec.tokenize] at hmem
    rcases List.mem_append.mp hmem with h | h
    · obtain ⟨w, hw, hw2⟩ := List.mem_map.mp h
      have h2 : some w = t.text r.line := congrArg Prod.snd hw2
      simp only [Token.text, hp, Option.map_some', Option.some.injEq] at h2
      apply cstr_ne_nil_lt
      rw [← h2]
      exact (mem_words line w hw).1
    · have h0 : (t.type, t.text r.line) = (TokenType.END, none) := by simpa using h
      have h2 : t.text r.line = none := congrArg Prod.snd h0
      simp [Token.text, hp] at h2

/-- C13, as stated, fails: on the line `ls -la` followed by a newline
`parse_tokens` overwrites the space and the newline of the buffer with `NUL`,
and the first token it returns is the offset 0 into that buffer, so that a later
change of the buffer's first byte changes the token's text from `ls` to `xs`. -/
theorem parse_tokens_not_read_only :
    parse_tokens ⟨.END, none⟩ "ls -la\n".toList 7 =
      .ok ⟨[⟨.DEFAULT, some 0⟩, ⟨.DEFAULT, some 3⟩, ⟨.END, none⟩],
        ['l', 's', NUL, '-', 'l', 'a', NUL]⟩ ∧
    ['l', 's', NUL, '-', 'l', 'a', NUL] ≠ "ls -la\n".toList ∧
    Token.text ['l', 's', NUL, '-', 'l', 'a', NUL] ⟨.DEFAULT, some 0⟩ = some "ls".toList ∧
    Token.text (['l', 's', NUL, '-', 'l', 'a', NUL].set 0 'x') ⟨.DEFAULT, some 0⟩ =
      some "xs".toList :=
  ⟨rfl, by decide, rfl, rfl⟩

/-- C13, amended. On every line for which it returns, `parse_tokens` leaves the
line buffer with its length and with every byte either unchanged or turned from
a delimiter into `NUL`; the texts of the returned tokens are not fresh data:
every token that has a text holds an offset into that buffer, and its text is
the C string found there. -/
theorem parse_tokens_buffer_effect (junk : Token) (line : List Char) (r : ParseResult)
    (hline : NUL ∉ line) (hr : parse_tokens junk line line.length = .ok r) :
    r.line.length = line.length ∧
    (∀ i, charAt r.line i = charAt line i ∨
      (Spec.isDelimiter (charAt line i) = true ∧ charAt r.line i = NUL)) ∧
    (∀ t ∈ r.tokens, ∀ p, t.value = some p →
      p < r.line.length ∧ t.text r.line = some (cstr r.line p)) := by
  have hn := parse_tokens_nulled junk line line.length r hr
  refine ⟨hn.1, fun i => ?_, fun t ht p hp => ?_⟩
  · rw [isDelimiter_eq]
    exact hn.2 i
  · exact ⟨parse_tokens_values junk line r hline hr t ht p hp, by simp [Token.text, hp]⟩

/-- C13, amended, at the line `ls -la` followed by a newline. -/
theorem parse_tokens_buffer_effect_witness :
    NUL ∉ "ls -la\n".toList ∧
    parse_tokens ⟨.END, none⟩ "ls -la\n".toList "ls -la\n".toList.length =
      .ok ⟨[⟨.DEFAULT, some 0⟩, ⟨.DEFAULT, some 3⟩, ⟨.END, none⟩],
        ['l', 's', NUL, '-', 'l', 'a', NUL]⟩ ∧
    (['l', 's', NUL, '-', 'l', 'a', NUL].length = "ls -la\n".toList.length ∧
      (∀ i, charAt ['l', 's', NUL, '-', 'l', 'a', NUL] i = charAt "ls -la\n".toList i ∨
        (Spec.isDelimiter (charAt "ls -la\n".toList i) = true ∧
          charAt ['l', 's', NUL, '-', 'l', 'a', NUL] i = NUL)) ∧
      (∀ t ∈ [(⟨.DEFAULT, some 0⟩ : Token), ⟨.DEFAULT, some 3⟩, ⟨.END, none⟩],
        ∀ p, t.value = some p →
          p < ['l', 's', NUL, '-', 'l', 'a', NUL].length ∧
            t.text ['l', 's', NUL, '-', 'l', 'a', NUL] =
              some (cstr ['l', 's', NUL, '-', 'l', 'a', NUL] p))) :=
  ⟨by decide, rfl,
    parse_tokens_buffer_effect ⟨.END, none⟩ "ls -la\n".toList
      ⟨[⟨.DEFAULT, some 0⟩, ⟨.DEFAULT, some 3⟩, ⟨.END, none⟩],
        ['l', 's', NUL, '-', 'l', 'a', NUL]⟩ (by decide) rfl⟩

/-! ## The driver -/

theorem cstr_zero_of_not_mem {line : List Char} (h : NUL ∉ line) : cstr line 0 = line := by
  unfold cstr
  rw [List.drop_zero, List.takeWhile_eq_self_iff]
  intro c hc
  simpa using not_mem_NUL h c hc

theorem strlen_of_not_mem {line : List Char} (h : NUL ∉ line) : strlen line = line.length := by
  rw [strlen, cstr_zero_of_not_mem h]

/-- The print loop of `main` on an array that holds the tokens of the words
`ws` and then the `End` token: every text followed by a space. -/
theorem printLoop_spec (nullStr mem : List Char) (cap : Nat) :
    ∀ (ws : List (List Char)) (tokens : List Token),
      tokens.map (fun t => (t.type, t.text mem)) =
        ws.map (fun w => (Spec.classify (some w), some w)) ++ [(TokenType.END, none)] →
      printLoop nullStr mem cap tokens = .ok (Spec.render ws) := by
  intro ws
  induction ws with
  | nil =>
    intro tokens h
    cases tokens with
    | nil => simp at h
    | cons t ts =>
      have h1 : t.type = .END := by
        have := congrArg List.head? h
        simpa using (congrArg (Option.map Prod.fst) this)
      simp [printLoop, h1, Spec.render]
  | cons w ws ih =>
    intro tokens h
    cases tokens with
    | nil => simp at h
    | cons t ts =>
      simp only [List.map_cons, List.cons_append, List.cons.injEq, Prod.mk.injEq] at h
      obtain ⟨⟨h1, h2⟩, h3⟩ := h
      have hne : t.type ≠ .END := by
        rw [h1]
        exact classify_some_ne_END w
      have hf : fmtS nullStr mem t.value = w := by
        cases hv : t.value with
        | none => simp [Token.text, hv] at h2
        | some p => simpa [Token.text, hv, fmtS] using h2
      simp only [printLoop, hne, if_false, ih ts h3, hf, Spec.render]

theorem stream_first_word (r : ParseResult) (line w : List Char) (ws : List (List Char))
    (hs : r.stream = Spec.tokenize line) (hw : Spec.words line = w :: ws) :
    ∃ t0 ts, r.tokens = t0 :: ts ∧ t0.type = Spec.classify (some w) ∧
      t0.text r.line = some w := by
  rw [ParseResult.stream, Spec.tokenize, hw] at hs
  cases ht : r.tokens with
  | nil => simp [ht] at hs
  | cons t0 ts =>
    rw [ht] at hs
    simp only [List.map_cons, List.cons_append, List.cons.injEq, Prod.mk.injEq] at hs
    exact ⟨t0, ts, rfl, hs.1.1, hs.1.2⟩

theorem fmtS_of_text {nullStr mem : List Char} {t : Token} {w : List Char}
    (h : t.text mem = some w) : fmtS nullStr mem t.value = w := by
  cases hv : t.value with
  | none => simp [Token.text, hv] at h
  | some p => simpa [Token.text, hv, fmtS] using h

/-- The driver on a line that is empty or ends in a delimiter and starts with a
word that is not reserved: the texts of the words, each followed by a space, on
standard output, nothing on standard error, status 0. -/
theorem main_word_line (junk : Token) (nullStr stdin line w : List Char)
    (ws : List (List Char)) (hf : fgets MAX_LINE stdin = some line) (hnul : NUL ∉ line)
    (hend : endsInWord line = false) (hw : Spec.words line = w :: ws)
    (hk : Spec.classify (some w) = .DEFAULT) :
    main junk nullStr stdin =
      .ok { status := 0, stdout := Spec.render (w :: ws), stderr := [] } := by
  obtain ⟨r, hr, hs, _⟩ := parse_tokens_ok junk line [] (not_mem_NUL hnul) terminated_nil hend
  rw [List.append_nil] at hr
  obtain ⟨t0, ts, ht, hty, _⟩ := stream_first_word r line w ws hs hw
  have hp := printLoop_spec nullStr r.line r.tokens.length (w :: ws) r.tokens
    (by rw [← hw]; exact hs)
  rw [ht] at hp
  simp only [main, hf, strlen_of_not_mem hnul, hr, ht, hty, hk, hp]

/-- The driver on a line that is empty or ends in a delimiter and starts with
`exit`: no output, status 0. -/
theorem main_exit_line (junk : Token) (nullStr stdin line w : List Char)
    (ws : List (List Char)) (hf : fgets MAX_LINE stdin = some line) (hnul : NUL ∉ line)
    (hend : endsInWord line = false) (hw : Spec.words line = w :: ws)
    (hk : Spec.classify (some w) = .EXIT) :
    main junk nullStr stdin = .ok { status := 0, stdout := [], stderr := [] } := by
  obtain ⟨r, hr, hs, _⟩ := parse_tokens_ok junk line [] (not_mem_NUL hnul) terminated_nil hend
  rw [List.append_nil] at hr
  obtain ⟨t0, ts, ht, hty, _⟩ := stream_first_word r line w ws hs hw
  simp only [main, hf, strlen_of_not_mem hnul, hr, ht, hty, hk]

/-- The driver on a line that is empty or ends in a delimiter and starts with
an operator: the diagnostic with the operator's text on standard error, nothing
on standard output, status 1. -/
theorem main_operator_line (junk : Token) (nullStr stdin line w : List Char)
    (ws : List (List Char)) (hf : fgets MAX_LINE stdin = some line) (hnul : NUL ∉ line)
    (hend : endsInWord line = false) (hw : Spec.words line = w :: ws)
    (hk1 : Spec.classify (some w) ≠ .EXIT) (hk2 : Spec.classify (some w) ≠ .DEFAULT) :
    main junk nullStr stdin =
      .ok { status := 1, stdout := [], stderr := invalidCommand ++ w ++ ['\n'] } := by
  obtain ⟨r, hr, hs, _⟩ := parse_tokens_ok junk line [] (not_mem_NUL hnul) terminated_nil hend
  rw [List.append_nil] at hr
  obtain ⟨t0, ts, ht, hty, htx⟩ := stream_first_word r line w ws hs hw
  simp only [main, hf, strlen_of_not_mem hnul, hr, ht]
  rw [hty] at *
  cases hc : Spec.classify (some w) <;> simp_all [fmtS_of_text htx]

/-- The driver on a line of delimiters only: the diagnostic with the rendering
of a null pointer, status 1. -/
theorem main_blank_line (junk : Token) (nullStr stdin line : List Char)
    (hf : fgets MAX_LINE stdin = some line) (hblank : line.all Spec.isDelimiter = true) :
    main junk nullStr stdin =
      .ok { status := 1, stdout := [], stderr := invalidCommand ++ nullStr ++ ['\n'] } := by
  have hnul : NUL ∉ line := fun h => isDelimCase_ne_NUL (all_isDelimiter hblank NUL h) rfl
  have hr : parse_tokens junk line line.length =
      .ok { tokens := [{ type := .END, value := none }], line := line } := by
    have hd := all_isDelimiter hblank
    have hc := countLoop_eq line [] (fun c hc => isDelimCase_ne_NUL (hd c hc))
    have hp := populateFrom_delims junk (line.length + 1) [] line [] [] 0 hd terminated_nil
    simp only [List.append_nil, List.nil_append, List.length_nil, List.replicate_zero] at hc hp
    rw [parse_tokens_eq, hc, argCountOf_delims line hd]
    simp only [Nat.zero_add, hp]
  simp only [main, hf, strlen_of_not_mem hnul, hr, fmtS]

/-- The driver on a line whose last character belongs to a word: the run
leaves defined behaviour inside `parse_tokens`. -/
theorem main_unterminated_line (junk : Token) (nullStr stdin line : List Char)
    (hf : fgets MAX_LINE stdin = some line) (hnul : NUL ∉ line)
    (hend : endsInWord line = true) :
    main junk nullStr stdin =
      .error (.outOfBounds (Spec.words line).length (Spec.words line).length) := by
  have h := parse_tokens_overflow junk line [] (not_mem_NUL hnul) terminated_nil hend
  rw [List.append_nil] at h
  simp only [main, hf, strlen_of_not_mem hnul, h]

theorem readLine_newline :
    ∀ (l : List Char) (k : Nat) (rest : List Char), '\n' ∉ l → l.length < k →
      readLine k (l ++ '\n' :: rest) = l ++ ['\n'] := by
  intro l
  induction l with
  | nil =>
    intro k rest _ hk
    obtain ⟨k1, rfl⟩ : ∃ k1, k = k1 + 1 := ⟨k - 1, by simp at hk; omega⟩
    simp [readLine]
  | cons c l ih =>
    intro k rest hnl hk
    obtain ⟨k1, rfl⟩ : ∃ k1, k = k1 + 1 := ⟨k - 1, by simp at hk; omega⟩
    have hc : c ≠ '\n' := fun h => hnl (by simp [h])
    have hl : '\n' ∉ l := fun h => hnl (by simp [h])
    have := ih k1 rest hl (by simp at hk; omega)
    simp only [List.cons_append, readLine, hc, if_false]
    exact congrArg (List.cons c) this

theorem readLine_eof :
    ∀ (l : List Char) (k : Nat), '\n' ∉ l → l.length ≤ k → readLine k l = l := by
  intro l
  induction l with
  | nil =>
    intro k _ _
    cases k <;> rfl
  | cons c l ih =>
    intro k hnl hk
    obtain ⟨k1, rfl⟩ : ∃ k1, k = k1 + 1 := ⟨k - 1, by simp at hk; omega⟩
    have hc : c ≠ '\n' := fun h => hnl (by simp [h])
    have hl : '\n' ∉ l := fun h => hnl (by simp [h])
    simp only [readLine, hc, if_false]
    rw [ih k1 hl (by simp at hk; omega)]

/-- What `fgets` stores when a newline comes within the size bound: the line up
to and including the newline. -/
theorem fgets_newline (l rest : List Char) (hnl : '\n' ∉ l) (hlen : l.length + 1 < MAX_LINE) :
    fgets MAX_LINE (l ++ '\n' :: rest) = some (l ++ ['\n']) := by
  have hm : MAX_LINE - 1 = 1023 := rfl
  have hm2 : MAX_LINE = 1024 := rfl
  cases l with
  | nil => simp [fgets, hm, readLine]
  | cons c l =>
    simp only [List.cons_append, fgets, hm]
    rw [← List.cons_append, readLine_newline (c :: l) 1023 rest hnl (by rw [hm2] at hlen; omega)]
    rfl

/-- What `fgets` stores when the input ends within the size bound without a
newline: all of it. -/
theorem fgets_eof (line : List Char) (hne : line ≠ []) (hnl : '\n' ∉ line)
    (hlen : line.length < MAX_LINE) : fgets MAX_LINE line = some line := by
  have hm : MAX_LINE - 1 = 1023 := rfl
  have hm2 : MAX_LINE = 1024 := rfl
  cases line with
  | nil => exact absurd rfl hne
  | cons c l =>
    simp only [fgets, hm]
    rw [readLine_eof (c :: l) 1023 hnl (by rw [hm2] at hlen; omega)]

/-! ## Lines put together -/

/-- The words of two strings joined by a delimiter are the words of the first
followed by the words of the second. -/
theorem words_append_delim (c : Char) (y : List Char) (hc : isDelimCase c = true) :
    ∀ (k : Nat) (x : List Char), x.length ≤ k →
      Spec.words (x ++ c :: y) = Spec.words x ++ Spec.words y := by
  intro k
  induction k with
  | zero =>
    intro x hk
    have h0 : x = [] := List.length_eq_zero.mp (by omega)
    subst h0
    simp [words_delim_cons _ _ hc, words_nil]
  | succ k ih =>
    intro x hk
    cases x with
    | nil => simp [words_delim_cons _ _ hc, words_nil]
    | cons a x1 =>
      cases ha : isDelimCase a
      · have e2 := List.takeWhile_append_dropWhile (fun c => !isDelimCase c) (a :: x1)
        have hne : (a :: x1).takeWhile (fun c => !isDelimCase c) ≠ [] := by
          simp [List.takeWhile_cons, ha]
        have hnd : ∀ c ∈ (a :: x1).takeWhile (fun c => !isDelimCase c),
            isDelimCase c = false := by
          intro c hc
          simpa using List.mem_takeWhile_imp hc
        cases h2 : (a :: x1).dropWhile (fun c => !isDelimCase c) with
        | nil =>
          rw [h2, List.append_nil] at e2
          rw [e2] at hne hnd
          rw [words_run_cons _ c y hne hnd hc, words_run _ hne hnd]
          rfl
        | cons d tl =>
          have hd : isDelimCase d = true := by
            have := List.head_dropWhile_not (fun c => !isDelimCase c) (a :: x1)
              (by rw [h2]; simp)
            simpa [h2] using this
          have hlen : tl.length ≤ k := by
            have := congrArg List.length e2
            rw [h2] at this
            simp at this hk
            have hpos : 0 < ((a :: x1).takeWhile (fun c => !isDelimCase c)).length :=
              List.length_pos.mpr hne
            omega
          rw [h2] at e2
          rw [← e2, List.append_assoc, List.cons_append,
            words_run_cons _ d (tl ++ c :: y) hne hnd hd, ih tl hlen,
            words_run_cons _ d tl hne hnd hd]
          rfl
      · rw [List.cons_append, words_delim_cons _ _ ha, words_delim_cons _ _ ha]
        exact ih x1 (by simp at hk; omega)

/-- The specification's stream of two strings joined by a delimiter: the stream
of the first without its `End`, then the stream of the second. -/
theorem tokenize_append_delim (x y : List Char) (c : Char) (hc : isDelimCase c = true) :
    Spec.tokenize (x ++ c :: y) = (Spec.tokenize x).dropLast ++ Spec.tokenize y := by
  simp only [Spec.tokenize, words_append_delim c y hc x.length x (le_refl _), List.map_append,
    List.dropLast_concat, List.append_assoc]

theorem endsInWord_append_delim (x y : List Char) (c : Char) (hc : isDelimCase c = true) :
    endsInWord (x ++ c :: y) = endsInWord y := by
  cases y with
  | nil => simp [endsInWord, hc]
  | cons b y1 =>
    simp only [endsInWord]
    rw [List.getLast?_append_of_ne_nil _ (by simp), List.getLast?_cons_cons]

theorem endsInWord_of_ok (junk : Token) (line : List Char) (r : ParseResult)
    (hline : NUL ∉ line) (hr : parse_tokens junk line line.length = .ok r) :
    endsInWord line = false ∧ r.stream = Spec.tokenize line := by
  cases he : endsInWord line with
  | true =>
    have h := parse_tokens_overflow junk line [] (not_mem_NUL hline) terminated_nil he
    rw [List.append_nil, hr] at h
    cases h
  | false =>
    obtain ⟨r1, hr1, hs, _⟩ := parse_tokens_ok junk line [] (not_mem_NUL hline) terminated_nil he
    rw [List.append_nil, hr] at hr1
    cases hr1
    exact ⟨rfl, hs⟩

theorem parse_tokens_stream (junk : Token) (line : List Char) (hline : NUL ∉ line)
    (hend : endsInWord line = false) :
    (parse_tokens junk line line.length).map ParseResult.stream = .ok (Spec.tokenize line) := by
  obtain ⟨r1, hr1, hs, _⟩ := parse_tokens_ok junk line [] (not_mem_NUL hline) terminated_nil hend
  rw [List.append_nil] at hr1
  rw [hr1]
  exact congrArg Except.ok hs

/-- Where `parse_tokens` returns on `x` and on `y`, it returns on `x`, a
delimiter, `y`, with the stream of `x` without its `End` followed by the stream
of `y`. -/
theorem stream_append_delim (junk : Token) (x y : List Char) (c : Char) (rx ry : ParseResult)
    (hx : NUL ∉ x) (hy : NUL ∉ y) (hc : isDelimCase c = true)
    (hrx : parse_tokens junk x x.length = .ok rx)
    (hry : parse_tokens junk y y.length = .ok ry) :
    (parse_tokens junk (x ++ c :: y) (x ++ c :: y).length).map ParseResult.stream =
      .ok (rx.stream.dropLast ++ ry.stream) := by
  obtain ⟨_, hsx⟩ := endsInWord_of_ok junk x rx hx hrx
  obtain ⟨hey, hsy⟩ := endsInWord_of_ok junk y ry hy hry
  have hnul : NUL ∉ x ++ c :: y := by
    intro h
    rcases List.mem_append.mp h with h | h
    · exact hx h
    · rcases List.mem_cons.mp h with h | h
      · exact isDelimCase_ne_NUL hc h.symm
      · exact hy h
  rw [parse_tokens_stream junk _ hnul (by rw [endsInWord_append_delim x y c hc, hey]),
    tokenize_append_delim x y c hc, hsx, hsy]

theorem words_render (ws : List (List Char))
    (h : ∀ w ∈ ws, w ≠ [] ∧ ∀ c ∈ w, isDelimCase c = false) :
    Spec.words (Spec.render ws) = ws := by
  induction ws with
  | nil => exact words_nil
  | cons w ws ih =>
    rw [Spec.render, words_run_cons w ' ' _ (h w (by simp)).1 (h w (by simp)).2 (by decide),
      ih (fun v hv => h v (by simp [hv]))]

theorem endsInWord_render (ws : List (List Char)) : endsInWord (Spec.render ws) = false := by
  induction ws with
  | nil => rfl
  | cons w ws ih => rw [Spec.render, endsInWord_append_delim w _ ' ' (by decide), ih]

theorem splitOnP_subset (l : List Char) :
    ∀ w ∈ l.splitOnP Spec.isDelimiter, ∀ c ∈ w, c ∈ l := by
  induction l with
  | nil =>
    intro w hw c hc
    simp [List.splitOnP_nil] at hw
    subst hw
    simp at hc
  | cons x xs ih =>
    intro w hw c hc
    rw [List.splitOnP_cons] at hw
    by_cases hx : Spec.isDelimiter x = true
    · simp only [hx, if_true, List.mem_cons] at hw
      rcases hw with hw | hw
      · subst hw
        simp at hc
      · exact List.mem_cons_of_mem _ (ih w hw c hc)
    · cases hs : List.splitOnP Spec.isDelimiter xs with
      | nil => exact absurd hs (List.splitOnP_ne_nil _ _)
      | cons h t =>
        rw [hs] at ih
        have hw2 : w = x :: h ∨ w ∈ t := by
          simpa [hx, hs, List.modifyHead] using hw
        rcases hw2 with hw2 | hw2
        · subst hw2
          simp only [List.mem_cons] at hc
          rcases hc with hc | hc
          · subst hc
            simp
          · exact List.mem_cons_of_mem _ (ih h (by simp) c hc)
        · exact List.mem_cons_of_mem _ (ih w (by simp [hw2]) c hc)

theorem not_mem_render (line : List Char) (hline : NUL ∉ line) :
    NUL ∉ Spec.render (Spec.words line) := by
  have hgen : ∀ ws : List (List Char), (∀ w ∈ ws, NUL ∉ w) → NUL ∉ Spec.render ws := by
    intro ws
    induction ws with
    | nil => intro _ h; simp [Spec.render] at h
    | cons w ws ih =>
      intro hws h
      rw [Spec.render] at h
      rcases List.mem_append.mp h with h | h
      · exact hws w (by simp) h
      · rcases List.mem_cons.mp h with h | h
        · exact absurd h (by decide)
        · exact ih (fun v hv => hws v (by simp [hv])) h
  apply hgen
  intro w hw h
  unfold Spec.words at hw
  rw [List.mem_filter] at hw
  exact hline (splitOnP_subset line w hw.1 NUL h)

/-- The text the driver prints for a line tokenizes to the stream of the line,
wherever `parse_tokens` returns on the line. -/
theorem render_roundtrip (junk : Token) (line : List Char) (r : ParseResult)
    (hline : NUL ∉ line) (hr : parse_tokens junk line line.length = .ok r) :
    (parse_tokens junk (Spec.render (Spec.words line))
        (Spec.render (Spec.words line)).length).map ParseResult.stream = .ok r.stream := by
  obtain ⟨_, hs⟩ := endsInWord_of_ok junk line r hline hr
  rw [parse_tokens_stream junk _ (not_mem_render line hline) (endsInWord_render _), hs,
    Spec.tokenize, words_render _ (fun w hw => mem_words line w hw), Spec.tokenize]

/-! ## The claims about the driver and about lines put together -/

/-- C11. The driver does not print the token texts for every line whose first
token is a word: when standard input holds `ls -la` and then ends,
`parse_tokens` stores the `End` token in `tokens[2]` of a two-slot array before
anything is printed; with the newline the driver prints `ls -la ` and ends with
status 0. -/
theorem main_word_line_without_newline_faults (junk : Token) (nullStr : List Char) :
    fgets MAX_LINE "ls -la".toList = some "ls -la".toList ∧
    main junk nullStr "ls -la".toList = .error (.outOfBounds 2 2) ∧
    main junk nullStr "ls -la\n".toList =
      .ok { status := 0, stdout := "ls -la ".toList, stderr := [] } :=
  ⟨rfl, rfl, rfl⟩

/-- C12. The driver does not report every line whose first token is an
operator: when standard input holds `| ls` and then ends, `parse_tokens` stores
the `End` token in `tokens[2]` of a two-slot array before the diagnostic is
written; with the newline the driver writes `Invalid command: |` and a newline
to standard error, nothing to standard output, and ends with status 1. -/
theorem main_operator_line_without_newline_faults (junk : Token) (nullStr : List Char) :
    fgets MAX_LINE "| ls".toList = some "| ls".toList ∧
    main junk nullStr "| ls".toList = .error (.outOfBounds 2 2) ∧
    main junk nullStr "| ls\n".toList =
      .ok { status := 1, stdout := [], stderr := "Invalid command: |\n".toList } :=
  ⟨rfl, rfl, rfl⟩

/-- C15. Tokenization does not distribute over every concatenation across a
delimiter: `parse_tokens` returns the stream `a`, `b`, `End` for `a b` followed
by a newline and the stream `b`, `End` for `b` followed by a newline, but for
`a` alone it stores the `End` token in `tokens[1]` of a one-slot array, so there
is no stream of `a` to take the `End` from. -/
theorem stream_of_first_part_overflows (junk : Token) :
    (parse_tokens junk ("a".toList ++ ' ' :: "b\n".toList) 4).map ParseResult.stream =
      .ok [(.DEFAULT, some "a".toList), (.DEFAULT, some "b".toList), (.END, none)] ∧
    (parse_tokens junk "b\n".toList 2).map ParseResult.stream =
      .ok [(.DEFAULT, some "b".toList), (.END, none)] ∧
    parse_tokens junk "a".toList 1 = .error (.outOfBounds 1 1) :=
  ⟨rfl, rfl, rfl⟩

/-- C16. The round trip through the driver's output fails for a line whose
last character belongs to a word: when standard input holds `echo hi` and then
ends, the driver prints no text to tokenize, because `parse_tokens` stores the
`End` token in `tokens[2]` of a two-slot array; with the newline the driver
prints `echo hi `, which tokenizes to the stream of the line. -/
theorem roundtrip_without_newline_faults (junk : Token) (nullStr : List Char) :
    main junk nullStr "echo hi".toList = .error (.outOfBounds 2 2) ∧
    parse_tokens junk "echo hi".toList 7 = .error (.outOfBounds 2 2) ∧
    main junk nullStr "echo hi\n".toList =
      .ok { status := 0, stdout := "echo hi ".toList, stderr := [] } ∧
    (parse_tokens junk "echo hi ".toList 8).map ParseResult.stream =
      (parse_tokens junk "echo hi\n".toList 8).map ParseResult.stream :=
  ⟨rfl, rfl, rfl, rfl⟩

end Shell
